import Mathlib

set_option maxHeartbeats 1000000

/-!
Verification of the zkboard-relay-network contracts.

This file gives a shallow embedding of the two Solidity contracts of the
repository — the Semaphore membership/gateway contract
(src/contracts/Semaphore.sol) and the deposit-only ZKBoard relay contract
(src/unnamed/part_000, first contract) — and proves the frozen claims about
them.  Machine integers (uint256) are modelled as Nat; the external Poseidon
hash, the keccak256 digest and the Groth16 verifier are abstract function
parameters.  Solidity mappings are total functions with the zero default, and
a reverting call is an `Except.error` that commits no state.
-/

/-- BN254 scalar field modulus (SNARK_SCALAR_FIELD referenced by the code
comments: signals are truncated below it). -/
def SNARK_SCALAR_FIELD : Nat :=
  21888242871839275222246405745257275088548364400416034343698204186575808495617

/-- ZKBoard constant MIN_DEPOSIT = 0.05 ether, in wei. -/
def MIN_DEPOSIT : Nat := 50000000000000000

/-- ZKBoard constant COST_PER_MESSAGE = 0.001 ether, in wei. -/
def COST_PER_MESSAGE : Nat := 1000000000000000

/-- Size of the uint256 value space. -/
def UINT256 : Nat := 2 ^ 256

/-- Pointwise update of a mapping (Solidity `m[i] = v`). -/
def updF {α : Type} (f : Nat → α) (i : Nat) (v : α) : Nat → α :=
  fun j => if j = i then v else f j

/-- Pointwise update of a two-key mapping (Solidity `m[i][j] = v`). -/
def updF2 (f : Nat → Nat → Bool) (i j : Nat) (v : Bool) : Nat → Nat → Bool :=
  fun a b => if a = i ∧ b = j then v else f a b

/-- Semaphore's per-group record (struct Group in Semaphore.sol).  Addresses
are modelled as Nat, with 0 playing the role of address(0). -/
structure SemGroup where
  admin : Nat
  depth : Nat
  size : Nat
  root : Nat
  filledSubtrees : Nat → Nat
  zeros : Nat → Nat

/-- The zero-initialised SemGroup that a Solidity mapping returns for an
untouched key. -/
def SemGroup.default0 : SemGroup :=
  { admin := 0, depth := 0, size := 0, root := 0,
    filledSubtrees := fun _ => 0, zeros := fun _ => 0 }

/-- Storage of the Semaphore contract: the `groups` and `validRoots`
mappings. -/
structure SemState where
  groups : Nat → SemGroup
  validRoots : Nat → Nat → Bool

/-- Revert reasons of the Semaphore contract's require statements. -/
inductive SemErr
  | alreadyExists
  | invalidDepth
  | notAdmin
  | groupFull
  | unknownRoot
deriving DecidableEq

/-- Iterated squaring-hash chain: `zeroChain H z n` is the value obtained from
`z` by `n` steps of `z ↦ H z z` (the `currentZero` loop of createGroup). -/
def zeroChain (H : Nat → Nat → Nat) (z : Nat) : Nat → Nat
  | 0 => z
  | n + 1 => zeroChain H (H z z) n

/-- Semaphore.createGroup: translation of the Solidity function.  `kw` is the
abstract keccak256 digest of an abi-encoded uint256. -/
def createGroup (H : Nat → Nat → Nat) (kw : Nat → Nat) (σ : SemState)
    (groupId depth admin : Nat) : Except SemErr SemState :=
  if (σ.groups groupId).depth ≠ 0 then .error .alreadyExists
  else if ¬ (1 ≤ depth ∧ depth ≤ 32) then .error .invalidDepth
  else
    let z0 : Nat := (kw groupId % UINT256) / 2 ^ 8
    let newRoot : Nat := zeroChain H z0 depth
    let g : SemGroup :=
      { admin := admin, depth := depth, size := 0, root := newRoot,
        filledSubtrees := fun _ => 0,
        zeros := fun i => if i < depth then zeroChain H z0 i else 0 }
    .ok { groups := updF σ.groups groupId g,
          validRoots := updF2 σ.validRoots groupId newRoot true }

/-- The addMember loop of Semaphore.sol, from level `i` for `rem` more levels.
Returns the updated `filledSubtrees` mapping, the final running hash (the new
root when started at the leaf level with `rem = depth`), and the number of
Poseidon hashes performed. -/
def addMemberLoop (H : Nat → Nat → Nat) (zeros : Nat → Nat) :
    Nat → Nat → (Nat → Nat) → Nat → Nat → ((Nat → Nat) × Nat × Nat)
  | _, 0, filled, _, node => (filled, node, 0)
  | i, rem + 1, filled, idx, node =>
    if idx % 2 = 0 then
      let r := addMemberLoop H zeros (i + 1) rem (updF filled i node) (idx / 2) (H node (zeros i))
      (r.1, r.2.1, r.2.2 + 1)
    else
      let r := addMemberLoop H zeros (i + 1) rem filled (idx / 2) (H (filled i) node)
      (r.1, r.2.1, r.2.2 + 1)

/-- Semaphore.addMember: admin-gated O(depth) incremental insert. -/
def addMember (H : Nat → Nat → Nat) (σ : SemState)
    (caller groupId identityCommitment : Nat) : Except SemErr SemState :=
  let g := σ.groups groupId
  if g.admin ≠ caller then .error .notAdmin
  else if ¬ (g.size < 2 ^ g.depth) then .error .groupFull
  else
    let r := addMemberLoop H g.zeros 0 g.depth g.filledSubtrees g.size identityCommitment
    let newRoot := r.2.1
    let g' : SemGroup := { g with root := newRoot, size := g.size + 1, filledSubtrees := r.1 }
    .ok { groups := updF σ.groups groupId g',
          validRoots := updF2 σ.validRoots groupId newRoot true }

/-- Semaphore.updateGroupAdmin. -/
def updateGroupAdmin (σ : SemState) (caller groupId newAdmin : Nat) :
    Except SemErr SemState :=
  if (σ.groups groupId).admin ≠ caller then .error .notAdmin
  else .ok { σ with
    groups := updF σ.groups groupId { σ.groups groupId with admin := newAdmin } }

/-- Type of the external Groth16 verifier (ISemaphoreVerifier.verifyProof):
proof points a, b, c, the four public inputs, and the tree depth. -/
def VerifierT : Type :=
  (Fin 2 → Nat) → (Fin 2 → Fin 2 → Nat) → (Fin 2 → Nat) → (Fin 4 → Nat) → Nat → Bool

/-- Semaphore.verifyProof: reverts on an unknown root, otherwise returns the
external verifier's boolean on the public-input vector
[merkleTreeRoot, nullifierHash, signal, externalNullifier] and the group's
depth.  A view function: it returns no new state. -/
def verifyProofSem (V : VerifierT) (σ : SemState)
    (groupId merkleTreeRoot signal nullifierHash externalNullifier : Nat)
    (proof : Fin 8 → Nat) : Except SemErr Bool :=
  if σ.validRoots groupId merkleTreeRoot = true then
    .ok (V ![proof 0, proof 1]
           ![![proof 2, proof 3], ![proof 4, proof 5]]
           ![proof 6, proof 7]
           ![merkleTreeRoot, nullifierHash, signal, externalNullifier]
           (σ.groups groupId).depth)
  else .error .unknownRoot

/-- The parity-directed fold described by the spec for insertion: at level `i`
with running index `idx`, an even index hashes the running node with the zero
value of the level on the right, an odd index hashes the previously stored
filled subtree on the left; the index is halved at each level. -/
def parityFold (H : Nat → Nat → Nat) (zeros filled : Nat → Nat) :
    Nat → Nat → Nat → Nat → Nat
  | _, 0, _, node => node
  | i, rem + 1, idx, node =>
    if idx % 2 = 0 then parityFold H zeros filled (i + 1) rem (idx / 2) (H node (zeros i))
    else parityFold H zeros filled (i + 1) rem (idx / 2) (H (filled i) node)

/-- One externally invoked Semaphore operation (caller plus arguments). -/
inductive SemOp
  | create (groupId depth admin : Nat)
  | add (caller groupId identityCommitment : Nat)
  | updAdmin (caller groupId newAdmin : Nat)
  | verify (groupId merkleTreeRoot signal nullifierHash externalNullifier : Nat)
      (proof : Fin 8 → Nat)

/-- Apply one Semaphore operation; verifyProof is a view call, so a successful
verification leaves the state as it was. -/
def semApply (H : Nat → Nat → Nat) (kw : Nat → Nat) (V : VerifierT)
    (σ : SemState) : SemOp → Except SemErr SemState
  | .create gid d a => createGroup H kw σ gid d a
  | .add c gid comm => addMember H σ c gid comm
  | .updAdmin c gid na => updateGroupAdmin σ c gid na
  | .verify gid root sig nh ext proof =>
    (verifyProofSem V σ gid root sig nh ext proof).map fun _ => σ

/-- Run one operation with revert semantics: a failed call leaves the state
unchanged. -/
def semRun1 (H : Nat → Nat → Nat) (kw : Nat → Nat) (V : VerifierT)
    (σ : SemState) (op : SemOp) : SemState :=
  match semApply H kw V σ op with
  | .ok σ' => σ'
  | .error _ => σ

/-- Run a serialized sequence of Semaphore operations. -/
def semRun (H : Nat → Nat → Nat) (kw : Nat → Nat) (V : VerifierT)
    (σ : SemState) : List SemOp → SemState
  | [] => σ
  | op :: ops => semRun H kw V (semRun1 H kw V σ op) ops

/-- A stored relay request (struct RelayRequest of the deposit-only ZKBoard).
The message is the byte string of the Solidity `string`. -/
structure RelayRequest where
  merkleTreeRoot : Nat
  nullifierHash : Nat
  proof : Fin 8 → Nat
  message : List Nat
  relayFee : Nat
  requester : Nat
  executed : Bool
  messageIndex : Nat

/-- The zero-initialised RelayRequest a Solidity mapping returns for a slot
that was never written; its requester is address(0). -/
def RelayRequest.default0 : RelayRequest :=
  { merkleTreeRoot := 0, nullifierHash := 0, proof := fun _ => 0, message := [],
    relayFee := 0, requester := 0, executed := false, messageIndex := 0 }

/-- Storage of the deposit-only ZKBoard plus the Semaphore contract it calls,
the ETH it holds (contractBal) and the ETH of external accounts (extBal).
`self` is the board's own address, the admin of its Semaphore group. -/
structure BoardState where
  self : Nat
  groupId : Nat
  sem : SemState
  deposits : Nat → Nat
  relayRequests : Nat → RelayRequest
  nextRequestId : Nat
  messageCounter : Nat
  nullifierHashes : Nat → Bool
  messageCount : Nat
  initialized : Bool
  contractBal : Nat
  extBal : Nat → Nat

/-- Revert reasons of the ZKBoard functions (plus EVM-level failures:
a sender without the sent value, checked-arithmetic underflow, and a
failed ETH transfer). -/
inductive BoardErr
  | belowMinDeposit
  | feeBelowCost
  | insufficientDeposit
  | badMessageIndex
  | nullifierUsed
  | alreadyExecuted
  | requestNotFound
  | zeroTopUp
  | nothingToWithdraw
  | alreadyInitialized
  | senderFundsShort
  | depositUnderflow
  | transferFailed
  | sem (e : SemErr)
deriving DecidableEq

/-- uint256(keccak256(abi.encodePacked(message))): abstract digest reduced
into the uint256 range. -/
def keccakOfBytes (ks : List Nat → Nat) (m : List Nat) : Nat := ks m % UINT256

/-- The signal computed by executeRelay from the stored message:
uint256(keccak256(abi.encodePacked(request.message))) >> 8. -/
def signalOfRelay (ks : List Nat → Nat) (m : List Nat) : Nat :=
  keccakOfBytes ks m / 2 ^ 8

/-- The signal computed by postMessageDirect from its message argument:
uint256(keccak256(abi.encodePacked(message))) >> 8. -/
def signalOfDirect (ks : List Nat → Nat) (m : List Nat) : Nat :=
  keccakOfBytes ks m / 2 ^ 8

/-- ZKBoard.initializeBoard: one-shot creation of the board's Semaphore group
with depth 20 and the board itself as admin. -/
def initializeBoard (H : Nat → Nat → Nat) (kw : Nat → Nat) (σ : BoardState) :
    Except BoardErr BoardState :=
  if σ.initialized then .error .alreadyInitialized
  else
    match createGroup H kw σ.sem σ.groupId 20 σ.self with
    | .error e => .error (.sem e)
    | .ok sem' => .ok { σ with initialized := true, sem := sem' }

/-- ZKBoard.joinGroupWithDeposit (deposit-only variant): requires the sent
value to be at least MIN_DEPOSIT on every call, adds the commitment to the
Semaphore group (the board is the admin) and adds the value to the sender's
deposit.  The sent value moves from the sender's account to the contract. -/
def joinGroupWithDeposit (H : Nat → Nat → Nat) (σ : BoardState)
    (sender value identityCommitment : Nat) : Except BoardErr BoardState :=
  if σ.extBal sender < value then .error .senderFundsShort
  else if value < MIN_DEPOSIT then .error .belowMinDeposit
  else
    match addMember H σ.sem σ.self σ.groupId identityCommitment with
    | .error e => .error (.sem e)
    | .ok sem' =>
      .ok { σ with
        sem := sem',
        deposits := updF σ.deposits sender (σ.deposits sender + value),
        contractBal := σ.contractBal + value,
        extBal := updF σ.extBal sender (σ.extBal sender - value) }

/-- ZKBoard.createRelayRequest (deposit-only variant): checks fee floor,
deposit coverage, message index and nullifier freshness, then increments
messageCounter, allocates the next requestId and stores the pending request.
No deposit is debited here. -/
def createRelayRequest (σ : BoardState)
    (sender merkleTreeRoot nullifierHash : Nat) (proof : Fin 8 → Nat)
    (message : List Nat) (relayFee messageIndex : Nat) :
    Except BoardErr BoardState :=
  if relayFee < COST_PER_MESSAGE then .error .feeBelowCost
  else if σ.deposits sender < relayFee then .error .insufficientDeposit
  else if messageIndex ≠ σ.messageCounter then .error .badMessageIndex
  else if σ.nullifierHashes nullifierHash then .error .nullifierUsed
  else
    .ok { σ with
      messageCounter := σ.messageCounter + 1,
      nextRequestId := σ.nextRequestId + 1,
      relayRequests := updF σ.relayRequests σ.nextRequestId
        { merkleTreeRoot := merkleTreeRoot, nullifierHash := nullifierHash,
          proof := proof, message := message, relayFee := relayFee,
          requester := sender, executed := false, messageIndex := messageIndex } }

/-- ZKBoard.executeRelay (deposit-only variant).  It calls
Semaphore.verifyProof through the ISemaphore interface, which declares no
return value: a revert inside Semaphore propagates, but the boolean the
deployed Semaphore returns is discarded, so execution continues even when the
verifier returns false.  On the success path it marks the nullifier, marks the
request executed, debits the fee from the requester's deposit
(checked subtraction) and transfers the fee to the caller. -/
def executeRelay (V : VerifierT) (ks : List Nat → Nat) (σ : BoardState)
    (sender requestId : Nat) : Except BoardErr BoardState :=
  let request := σ.relayRequests requestId
  if request.executed then .error .alreadyExecuted
  else if request.requester = 0 then .error .requestNotFound
  else
    let signal := signalOfRelay ks request.message
    if σ.nullifierHashes request.nullifierHash then .error .nullifierUsed
    else
      match verifyProofSem V σ.sem σ.groupId request.merkleTreeRoot signal
          request.nullifierHash request.messageIndex request.proof with
      | .error e => .error (.sem e)
      | .ok _ =>
        if σ.deposits request.requester < request.relayFee then .error .depositUnderflow
        else if σ.contractBal < request.relayFee then .error .transferFailed
        else
          .ok { σ with
            nullifierHashes := updF σ.nullifierHashes request.nullifierHash true,
            relayRequests := updF σ.relayRequests requestId { request with executed := true },
            deposits := updF σ.deposits request.requester
              (σ.deposits request.requester - request.relayFee),
            contractBal := σ.contractBal - request.relayFee,
            extBal := updF σ.extBal sender (σ.extBal sender + request.relayFee),
            messageCount := σ.messageCount + 1 }

/-- ZKBoard.postMessageDirect (deposit-only variant): same gateway call as
executeRelay (boolean result likewise discarded); on success marks the
nullifier, debits COST_PER_MESSAGE from the sender's deposit (the ETH stays
in the contract) and increments both counters. -/
def postMessageDirect (V : VerifierT) (ks : List Nat → Nat) (σ : BoardState)
    (sender merkleTreeRoot nullifierHash : Nat) (proof : Fin 8 → Nat)
    (message : List Nat) (messageIndex : Nat) : Except BoardErr BoardState :=
  if σ.deposits sender < COST_PER_MESSAGE then .error .insufficientDeposit
  else if messageIndex ≠ σ.messageCounter then .error .badMessageIndex
  else
    let signal := signalOfDirect ks message
    if σ.nullifierHashes nullifierHash then .error .nullifierUsed
    else
      match verifyProofSem V σ.sem σ.groupId merkleTreeRoot signal
          nullifierHash messageIndex proof with
      | .error e => .error (.sem e)
      | .ok _ =>
        .ok { σ with
          nullifierHashes := updF σ.nullifierHashes nullifierHash true,
          deposits := updF σ.deposits sender (σ.deposits sender - COST_PER_MESSAGE),
          messageCounter := σ.messageCounter + 1,
          messageCount := σ.messageCount + 1 }

/-- ZKBoard.topUpDeposit. -/
def topUpDeposit (σ : BoardState) (sender value : Nat) :
    Except BoardErr BoardState :=
  if σ.extBal sender < value then .error .senderFundsShort
  else if value = 0 then .error .zeroTopUp
  else
    .ok { σ with
      deposits := updF σ.deposits sender (σ.deposits sender + value),
      contractBal := σ.contractBal + value,
      extBal := updF σ.extBal sender (σ.extBal sender - value) }

/-- ZKBoard.withdrawDeposit: zeroes the sender's deposit and transfers the
whole amount back (balance-then-transfer ordering). -/
def withdrawDeposit (σ : BoardState) (sender : Nat) :
    Except BoardErr BoardState :=
  let amount := σ.deposits sender
  if amount = 0 then .error .nothingToWithdraw
  else if σ.contractBal < amount then .error .transferFailed
  else
    .ok { σ with
      deposits := updF σ.deposits sender 0,
      contractBal := σ.contractBal - amount,
      extBal := updF σ.extBal sender (σ.extBal sender + amount) }

/-- One externally invoked ZKBoard transaction (sender plus arguments). -/
inductive BoardOp
  | init (sender : Nat)
  | join (sender value identityCommitment : Nat)
  | createReq (sender merkleTreeRoot nullifierHash : Nat) (proof : Fin 8 → Nat)
      (message : List Nat) (relayFee messageIndex : Nat)
  | execute (sender requestId : Nat)
  | postDirect (sender merkleTreeRoot nullifierHash : Nat) (proof : Fin 8 → Nat)
      (message : List Nat) (messageIndex : Nat)
  | topUp (sender value : Nat)
  | withdraw (sender : Nat)

/-- The externally owned account a transaction comes from. -/
def BoardOp.sender : BoardOp → Nat
  | .init s => s
  | .join s _ _ => s
  | .createReq s _ _ _ _ _ _ => s
  | .execute s _ => s
  | .postDirect s _ _ _ _ _ => s
  | .topUp s _ => s
  | .withdraw s => s

/-- Apply one ZKBoard transaction. -/
def boardApply (H : Nat → Nat → Nat) (kw : Nat → Nat) (ks : List Nat → Nat)
    (V : VerifierT) (σ : BoardState) : BoardOp → Except BoardErr BoardState
  | .init _ => initializeBoard H kw σ
  | .join s v c => joinGroupWithDeposit H σ s v c
  | .createReq s root nh proof msg fee idx => createRelayRequest σ s root nh proof msg fee idx
  | .execute s id => executeRelay V ks σ s id
  | .postDirect s root nh proof msg idx => postMessageDirect V ks σ s root nh proof msg idx
  | .topUp s v => topUpDeposit σ s v
  | .withdraw s => withdrawDeposit σ s

/-- Run one transaction with revert semantics: a failed transaction leaves
every piece of state unchanged. -/
def boardRun1 (H : Nat → Nat → Nat) (kw : Nat → Nat) (ks : List Nat → Nat)
    (V : VerifierT) (σ : BoardState) (op : BoardOp) : BoardState :=
  match boardApply H kw ks V σ op with
  | .ok σ' => σ'
  | .error _ => σ

/-- Run a serialized sequence of transactions. -/
def boardRun (H : Nat → Nat → Nat) (kw : Nat → Nat) (ks : List Nat → Nat)
    (V : VerifierT) (σ : BoardState) : List BoardOp → BoardState
  | [] => σ
  | op :: ops => boardRun H kw ks V (boardRun1 H kw ks V σ op) ops

/-- The state of a freshly deployed board (constructor of ZKBoard pointing at
a freshly deployed Semaphore): all mappings zero, `wealth` the arbitrary ETH
balances of external accounts. -/
def initialBoard (self gid : Nat) (wealth : Nat → Nat) : BoardState :=
  { self := self, groupId := gid,
    sem := { groups := fun _ => SemGroup.default0, validRoots := fun _ _ => false },
    deposits := fun _ => 0, relayRequests := fun _ => RelayRequest.default0,
    nextRequestId := 0, messageCounter := 0, nullifierHashes := fun _ => false,
    messageCount := 0, initialized := false, contractBal := 0, extBal := wealth }

/-- Number of created-but-not-yet-executed requests in the store. -/
def pendingCount (σ : BoardState) : Nat :=
  (List.range σ.nextRequestId).countP fun id =>
    (σ.relayRequests id).requester != 0 && !(σ.relayRequests id).executed

theorem updF_same {α : Type} (f : Nat → α) (i : Nat) (v : α) : updF f i v i = v := by
  simp [updF]

theorem updF_other {α : Type} (f : Nat → α) (i j : Nat) (v : α) (h : j ≠ i) :
    updF f i v j = f j := by
  simp [updF, h]

theorem updF2_mono (f : Nat → Nat → Bool) (i j a b : Nat) (h : f a b = true) :
    updF2 f i j true a b = true := by
  unfold updF2
  split <;> simp [h]

/-- Success inversion for executeRelay: what must have held before, and the
exact post-state. -/
theorem executeRelay_ok (V : VerifierT) (ks : List Nat → Nat) (σ : BoardState)
    (sender requestId : Nat) (σ' : BoardState)
    (h : executeRelay V ks σ sender requestId = .ok σ') :
    (σ.relayRequests requestId).executed = false ∧
    (σ.relayRequests requestId).requester ≠ 0 ∧
    σ.nullifierHashes (σ.relayRequests requestId).nullifierHash = false ∧
    σ.sem.validRoots σ.groupId (σ.relayRequests requestId).merkleTreeRoot = true ∧
    (σ.relayRequests requestId).relayFee ≤ σ.deposits (σ.relayRequests requestId).requester ∧
    (σ.relayRequests requestId).relayFee ≤ σ.contractBal ∧
    σ' = { σ with
      nullifierHashes := updF σ.nullifierHashes (σ.relayRequests requestId).nullifierHash true,
      relayRequests := updF σ.relayRequests requestId
        { σ.relayRequests requestId with executed := true },
      deposits := updF σ.deposits (σ.relayRequests requestId).requester
        (σ.deposits (σ.relayRequests requestId).requester - (σ.relayRequests requestId).relayFee),
      contractBal := σ.contractBal - (σ.relayRequests requestId).relayFee,
      extBal := updF σ.extBal sender (σ.extBal sender + (σ.relayRequests requestId).relayFee),
      messageCount := σ.messageCount + 1 } := by
  simp only [executeRelay, verifyProofSem, signalOfRelay] at h
  split at h
  · exact absurd h (by simp)
  rename_i hexec
  split at h
  · exact absurd h (by simp)
  rename_i hreq
  split at h
  · exact absurd h (by simp)
  rename_i hnull
  split at h
  · exact absurd h (by simp)
  rename_i b heq
  split at heq
  case isFalse => exact absurd heq (by simp)
  rename_i hroot
  split at h
  · exact absurd h (by simp)
  rename_i hdep
  split at h
  · exact absurd h (by simp)
  rename_i hbal
  injection h with h
  exact ⟨by simpa using hexec, hreq, by simpa using hnull, hroot, by omega, by omega, h.symm⟩

/-- Success inversion for createRelayRequest. -/
theorem createRelayRequest_ok (σ : BoardState)
    (sender merkleTreeRoot nullifierHash : Nat) (proof : Fin 8 → Nat)
    (message : List Nat) (relayFee messageIndex : Nat) (σ' : BoardState)
    (h : createRelayRequest σ sender merkleTreeRoot nullifierHash proof message
        relayFee messageIndex = .ok σ') :
    COST_PER_MESSAGE ≤ relayFee ∧
    relayFee ≤ σ.deposits sender ∧
    messageIndex = σ.messageCounter ∧
    σ.nullifierHashes nullifierHash = false ∧
    σ' = { σ with
      messageCounter := σ.messageCounter + 1,
      nextRequestId := σ.nextRequestId + 1,
      relayRequests := updF σ.relayRequests σ.nextRequestId
        { merkleTreeRoot := merkleTreeRoot, nullifierHash := nullifierHash,
          proof := proof, message := message, relayFee := relayFee,
          requester := sender, executed := false, messageIndex := messageIndex } } := by
  simp only [createRelayRequest] at h
  split at h
  · exact absurd h (by simp)
  rename_i hfee
  split at h
  · exact absurd h (by simp)
  rename_i hdep
  split at h
  · exact absurd h (by simp)
  rename_i hidx
  split at h
  · exact absurd h (by simp)
  rename_i hnull
  injection h with h
  exact ⟨by omega, by omega, by omega, by simpa using hnull, h.symm⟩

/-- Success inversion for postMessageDirect. -/
theorem postMessageDirect_ok (V : VerifierT) (ks : List Nat → Nat) (σ : BoardState)
    (sender merkleTreeRoot nullifierHash : Nat) (proof : Fin 8 → Nat)
    (message : List Nat) (messageIndex : Nat) (σ' : BoardState)
    (h : postMessageDirect V ks σ sender merkleTreeRoot nullifierHash proof message
        messageIndex = .ok σ') :
    COST_PER_MESSAGE ≤ σ.deposits sender ∧
    messageIndex = σ.messageCounter ∧
    σ.nullifierHashes nullifierHash = false ∧
    σ.sem.validRoots σ.groupId merkleTreeRoot = true ∧
    σ' = { σ with
      nullifierHashes := updF σ.nullifierHashes nullifierHash true,
      deposits := updF σ.deposits sender (σ.deposits sender - COST_PER_MESSAGE),
      messageCounter := σ.messageCounter + 1,
      messageCount := σ.messageCount + 1 } := by
  simp only [postMessageDirect, verifyProofSem, signalOfDirect] at h
  split at h
  · exact absurd h (by simp)
  rename_i hdep
  split at h
  · exact absurd h (by simp)
  rename_i hidx
  split at h
  · exact absurd h (by simp)
  rename_i hnull
  split at h
  · exact absurd h (by simp)
  rename_i b heq
  split at heq
  case isFalse => exact absurd heq (by simp)
  rename_i hroot
  injection h with h
  exact ⟨by omega, by omega, by simpa using hnull, hroot, h.symm⟩

/-- Success inversion for joinGroupWithDeposit. -/
theorem joinGroupWithDeposit_ok (H : Nat → Nat → Nat) (σ : BoardState)
    (sender value identityCommitment : Nat) (σ' : BoardState)
    (h : joinGroupWithDeposit H σ sender value identityCommitment = .ok σ') :
    value ≤ σ.extBal sender ∧
    MIN_DEPOSIT ≤ value ∧
    ∃ sem', addMember H σ.sem σ.self σ.groupId identityCommitment = .ok sem' ∧
      σ' = { σ with
        sem := sem',
        deposits := updF σ.deposits sender (σ.deposits sender + value),
        contractBal := σ.contractBal + value,
        extBal := updF σ.extBal sender (σ.extBal sender - value) } := by
  simp only [joinGroupWithDeposit] at h
  split at h
  · exact absurd h (by simp)
  rename_i hbal
  split at h
  · exact absurd h (by simp)
  rename_i hmin
  split at h
  · exact absurd h (by simp)
  rename_i sem' heq
  injection h with h
  exact ⟨by omega, by omega, sem', heq, h.symm⟩

/-- Success inversion for topUpDeposit. -/
theorem topUpDeposit_ok (σ : BoardState) (sender value : Nat) (σ' : BoardState)
    (h : topUpDeposit σ sender value = .ok σ') :
    value ≤ σ.extBal sender ∧ value ≠ 0 ∧
    σ' = { σ with
      deposits := updF σ.deposits sender (σ.deposits sender + value),
      contractBal := σ.contractBal + value,
      extBal := updF σ.extBal sender (σ.extBal sender - value) } := by
  simp only [topUpDeposit] at h
  split at h
  · exact absurd h (by simp)
  rename_i hbal
  split at h
  · exact absurd h (by simp)
  rename_i hz
  injection h with h
  exact ⟨by omega, hz, h.symm⟩

/-- Success inversion for withdrawDeposit. -/
theorem withdrawDeposit_ok (σ : BoardState) (sender : Nat) (σ' : BoardState)
    (h : withdrawDeposit σ sender = .ok σ') :
    σ.deposits sender ≠ 0 ∧
    σ.deposits sender ≤ σ.contractBal ∧
    σ' = { σ with
      deposits := updF σ.deposits sender 0,
      contractBal := σ.contractBal - σ.deposits sender,
      extBal := updF σ.extBal sender (σ.extBal sender + σ.deposits sender) } := by
  simp only [withdrawDeposit] at h
  split at h
  · exact absurd h (by simp)
  rename_i hz
  split at h
  · exact absurd h (by simp)
  rename_i hbal
  injection h with h
  exact ⟨hz, by omega, h.symm⟩

/-- Success inversion for initializeBoard. -/
theorem initializeBoard_ok (H : Nat → Nat → Nat) (kw : Nat → Nat) (σ : BoardState)
    (σ' : BoardState) (h : initializeBoard H kw σ = .ok σ') :
    σ.initialized = false ∧
    ∃ sem', createGroup H kw σ.sem σ.groupId 20 σ.self = .ok sem' ∧
      σ' = { σ with initialized := true, sem := sem' } := by
  simp only [initializeBoard] at h
  split at h
  · exact absurd h (by simp)
  rename_i hinit
  split at h
  · exact absurd h (by simp)
  rename_i sem' heq
  injection h with h
  exact ⟨by simpa using hinit, sem', heq, h.symm⟩

/-- Success inversion for Semaphore.addMember. -/
theorem addMember_ok (H : Nat → Nat → Nat) (σ : SemState)
    (caller groupId identityCommitment : Nat) (σ' : SemState)
    (h : addMember H σ caller groupId identityCommitment = .ok σ') :
    (σ.groups groupId).admin = caller ∧
    (σ.groups groupId).size < 2 ^ (σ.groups groupId).depth ∧
    σ' = { groups := updF σ.groups groupId
             { σ.groups groupId with
               root := (addMemberLoop H (σ.groups groupId).zeros 0 (σ.groups groupId).depth
                 (σ.groups groupId).filledSubtrees (σ.groups groupId).size identityCommitment).2.1,
               size := (σ.groups groupId).size + 1,
               filledSubtrees := (addMemberLoop H (σ.groups groupId).zeros 0 (σ.groups groupId).depth
                 (σ.groups groupId).filledSubtrees (σ.groups groupId).size identityCommitment).1 },
           validRoots := updF2 σ.validRoots groupId
             (addMemberLoop H (σ.groups groupId).zeros 0 (σ.groups groupId).depth
               (σ.groups groupId).filledSubtrees (σ.groups groupId).size identityCommitment).2.1
             true } := by
  simp only [addMember] at h
  split at h
  · exact absurd h (by simp)
  rename_i hadm
  split at h
  · exact absurd h (by simp)
  rename_i hsz
  injection h with h
  refine ⟨by omega, by simpa using hsz, h.symm⟩

/-- Success inversion for Semaphore.createGroup. -/
theorem createGroup_ok (H : Nat → Nat → Nat) (kw : Nat → Nat) (σ : SemState)
    (groupId depth admin : Nat) (σ' : SemState)
    (h : createGroup H kw σ groupId depth admin = .ok σ') :
    (σ.groups groupId).depth = 0 ∧ 1 ≤ depth ∧ depth ≤ 32 ∧
    σ' = { groups := updF σ.groups groupId
             { admin := admin, depth := depth, size := 0,
               root := zeroChain H ((kw groupId % UINT256) / 2 ^ 8) depth,
               filledSubtrees := fun _ => 0,
               zeros := fun i => if i < depth then zeroChain H ((kw groupId % UINT256) / 2 ^ 8) i else 0 },
           validRoots := updF2 σ.validRoots groupId
             (zeroChain H ((kw groupId % UINT256) / 2 ^ 8) depth) true } := by
  simp only [createGroup] at h
  split at h
  · exact absurd h (by simp)
  rename_i hd
  split at h
  · exact absurd h (by simp)
  rename_i hrange
  injection h with h
  refine ⟨by omega, ?_, ?_, h.symm⟩
  · omega
  · omega

/-- A concrete stand-in for the Poseidon hash, used in closed witnesses. -/
def Hc : Nat → Nat → Nat := fun a b => 2 * a + 3 * b + 1

/-- A concrete stand-in for keccak256 of a uint256, used in closed witnesses. -/
def kwc : Nat → Nat := fun n => n + 11

/-- A concrete stand-in for keccak256 of a byte string, used in closed
witnesses. -/
def ksc : List Nat → Nat := fun m => m.length + 7

/-- The external verifier that accepts everything. -/
def Vtrue : VerifierT := fun _ _ _ _ _ => true

/-- The external verifier that rejects everything. -/
def Vfalse : VerifierT := fun _ _ _ _ _ => false

/-- A concrete all-zero Groth16 proof. -/
def pf0 : Fin 8 → Nat := fun _ => 0

/-- A concrete pending relay request with nullifier 3 against root 7. -/
def reqC : RelayRequest :=
  { merkleTreeRoot := 7, nullifierHash := 3, proof := pf0, message := [104, 105],
    relayFee := COST_PER_MESSAGE, requester := 1, executed := false, messageIndex := 0 }

/-- A concrete Semaphore state: group 5 with depth 20, admin 2 (the board),
and 7 recorded as a valid root. -/
def semC : SemState :=
  { groups := updF (fun _ => SemGroup.default0) 5 { SemGroup.default0 with admin := 2, depth := 20 },
    validRoots := updF2 (fun _ _ => false) 5 7 true }

/-- A concrete board state holding one pending request (id 0) whose requester
has exactly the fee on deposit. -/
def σpend : BoardState :=
  { self := 2, groupId := 5, sem := semC,
    deposits := updF (fun _ => 0) 1 COST_PER_MESSAGE,
    relayRequests := updF (fun _ => RelayRequest.default0) 0 reqC,
    nextRequestId := 1, messageCounter := 1, nullifierHashes := fun _ => false,
    messageCount := 0, initialized := true, contractBal := COST_PER_MESSAGE,
    extBal := fun _ => 0 }

/-- The state σpend after relayer 9 successfully executes request 0. -/
def σdone : BoardState :=
  { σpend with
    nullifierHashes := updF σpend.nullifierHashes 3 true,
    relayRequests := updF σpend.relayRequests 0 { reqC with executed := true },
    deposits := updF σpend.deposits 1 (σpend.deposits 1 - COST_PER_MESSAGE),
    contractBal := σpend.contractBal - COST_PER_MESSAGE,
    extBal := updF σpend.extBal 9 (σpend.extBal 9 + COST_PER_MESSAGE),
    messageCount := σpend.messageCount + 1 }

/-- C8: the signal is the 256-bit one-way digest of the message bytes with its
8 low-order bits dropped, hence below 2^248 and below the BN254 scalar field
modulus; executeRelay and postMessageDirect compute bit-identical signal
values for the same message bytes. -/
theorem C8_signal_digest (ks : List Nat → Nat) (m : List Nat) :
    signalOfRelay ks m = signalOfDirect ks m ∧
    signalOfRelay ks m = keccakOfBytes ks m / 2 ^ 8 ∧
    signalOfRelay ks m < 2 ^ 248 ∧
    signalOfRelay ks m < SNARK_SCALAR_FIELD := by
  have hlt : keccakOfBytes ks m < 2 ^ 256 := by
    have : (0 : Nat) < 2 ^ 256 := by positivity
    simpa [keccakOfBytes, UINT256] using Nat.mod_lt (ks m) this
  have h248 : signalOfRelay ks m < 2 ^ 248 := by
    have h2 : (0 : Nat) < 2 ^ 8 := by positivity
    have := (Nat.div_lt_iff_lt_mul h2).2 (by
      calc keccakOfBytes ks m < 2 ^ 256 := hlt
        _ = 2 ^ 248 * 2 ^ 8 := by norm_num)
    simpa [signalOfRelay] using this
  refine ⟨rfl, rfl, h248, lt_trans h248 ?_⟩
  norm_num [SNARK_SCALAR_FIELD]

/-- C5: Semaphore.verifyProof fails with UnknownRoot when the (groupId, root)
pair is not in the valid-root history; otherwise returns exactly the external
verifier's boolean on the public inputs [root, nullifierHash, signal,
externalNullifier] and the group's depth; and as a view call it never mutates
the Semaphore state. -/
theorem C5_verifyProof_gateway (V : VerifierT) (σ : SemState)
    (groupId root signal nullifierHash externalNullifier : Nat) (proof : Fin 8 → Nat) :
    (σ.validRoots groupId root = false →
      verifyProofSem V σ groupId root signal nullifierHash externalNullifier proof
        = .error .unknownRoot) ∧
    (σ.validRoots groupId root = true →
      verifyProofSem V σ groupId root signal nullifierHash externalNullifier proof
        = .ok (V ![proof 0, proof 1]
                 ![![proof 2, proof 3], ![proof 4, proof 5]]
                 ![proof 6, proof 7]
                 ![root, nullifierHash, signal, externalNullifier]
                 (σ.groups groupId).depth)) ∧
    (∀ H kw, semRun1 H kw V σ
        (SemOp.verify groupId root signal nullifierHash externalNullifier proof) = σ) := by
  refine ⟨fun hf => ?_, fun ht => ?_, fun H kw => ?_⟩
  · simp [verifyProofSem, hf]
  · simp [verifyProofSem, ht]
  · unfold semRun1 semApply
    cases hv : verifyProofSem V σ groupId root signal nullifierHash externalNullifier proof <;>
      simp [hv, Except.map]

/-- C5 witness: at a concrete state with root 7 valid for group 5 and nothing
else, both branches of the gateway behaviour and the absence of mutation. -/
theorem C5_verifyProof_gateway_witness :
    verifyProofSem Vtrue semC 5 8 0 3 0 pf0 = .error .unknownRoot ∧
    verifyProofSem Vtrue semC 5 7 0 3 0 pf0
      = .ok (Vtrue ![pf0 0, pf0 1] ![![pf0 2, pf0 3], ![pf0 4, pf0 5]] ![pf0 6, pf0 7]
          ![7, 3, 0, 0] (semC.groups 5).depth) ∧
    semRun1 Hc kwc Vtrue semC (SemOp.verify 5 7 0 3 0 pf0) = semC := by
  refine ⟨(C5_verifyProof_gateway Vtrue semC 5 8 0 3 0 pf0).1 (by decide), ?_, ?_⟩
  · exact (C5_verifyProof_gateway Vtrue semC 5 7 0 3 0 pf0).2.1 (by decide)
  · exact (C5_verifyProof_gateway Vtrue semC 5 7 0 3 0 pf0).2.2 Hc kwc

/-- C6: after every successful executeRelay with stored fee f and requester p,
p's ledger balance decreases by exactly f (and it covered f), the calling
executor's account is credited with exactly f, and no other principal's
deposit changes. -/
theorem C6_ledger_conservation (V : VerifierT) (ks : List Nat → Nat) (σ : BoardState)
    (sender requestId : Nat) (σ' : BoardState)
    (h : executeRelay V ks σ sender requestId = .ok σ') :
    (σ.relayRequests requestId).relayFee ≤ σ.deposits (σ.relayRequests requestId).requester ∧
    σ'.deposits (σ.relayRequests requestId).requester
      = σ.deposits (σ.relayRequests requestId).requester - (σ.relayRequests requestId).relayFee ∧
    σ.deposits (σ.relayRequests requestId).requester
      - σ'.deposits (σ.relayRequests requestId).requester = (σ.relayRequests requestId).relayFee ∧
    σ'.extBal sender = σ.extBal sender + (σ.relayRequests requestId).relayFee ∧
    (∀ q, q ≠ (σ.relayRequests requestId).requester → σ'.deposits q = σ.deposits q) := by
  obtain ⟨-, -, -, -, hdep, -, hσ'⟩ := executeRelay_ok V ks σ sender requestId σ' h
  subst hσ'
  refine ⟨hdep, by simp [updF_same], by simp [updF_same]; omega, by simp [updF_same], ?_⟩
  intro q hq
  simp [updF_other _ _ _ _ hq]

/-- C6 witness: relayer 9 executes request 0 of the concrete state σpend;
requester 1 is debited the fee, relayer 9 is credited it, and bystander 4's
deposit is untouched. -/
theorem C6_ledger_conservation_witness :
    executeRelay Vtrue ksc σpend 9 0 = .ok σdone ∧
    σdone.deposits 1 = σpend.deposits 1 - COST_PER_MESSAGE ∧
    σpend.deposits 1 - σdone.deposits 1 = COST_PER_MESSAGE ∧
    σdone.extBal 9 = σpend.extBal 9 + COST_PER_MESSAGE ∧
    σdone.deposits 4 = σpend.deposits 4 := by
  have h : executeRelay Vtrue ksc σpend 9 0 = .ok σdone := by rfl
  obtain ⟨-, h2, h3, h4, h5⟩ := C6_ledger_conservation Vtrue ksc σpend 9 0 σdone h
  exact ⟨h, h2, h3, h4, h5 4 (by decide)⟩

/-- Storage of the credits-variant ZKBoard (second contract in
src/unnamed/part_000), restricted to what joinGroupWithDeposit touches. -/
structure CreditState where
  self : Nat
  groupId : Nat
  sem : SemState
  deposits : Nat → Nat
  credits : Nat → Nat
  contractBal : Nat
  extBal : Nat → Nat

/-- ZKBoard.joinGroupWithDeposit of the credits variant: same unconditional
MIN_DEPOSIT guard, and additionally credits value / COST_PER_MESSAGE. -/
def joinGroupWithDepositCredits (H : Nat → Nat → Nat) (σ : CreditState)
    (sender value identityCommitment : Nat) : Except BoardErr CreditState :=
  if σ.extBal sender < value then .error .senderFundsShort
  else if value < MIN_DEPOSIT then .error .belowMinDeposit
  else
    match addMember H σ.sem σ.self σ.groupId identityCommitment with
    | .error e => .error (.sem e)
    | .ok sem' =>
      .ok { σ with
        sem := sem',
        deposits := updF σ.deposits sender (σ.deposits sender + value),
        credits := updF σ.credits sender (σ.credits sender + value / COST_PER_MESSAGE),
        contractBal := σ.contractBal + value,
        extBal := updF σ.extBal sender (σ.extBal sender - value) }

/-- A board state in which principal 1 has already joined (deposit
MIN_DEPOSIT) and owns plenty of ETH. -/
def σjoined : BoardState :=
  { σpend with
    deposits := updF (fun _ => 0) 1 MIN_DEPOSIT,
    extBal := fun _ => MIN_DEPOSIT }

/-- C7 counterexample: principal 1 has already joined (positive deposit), yet
a further joinGroupWithDeposit call with the positive amount 1 wei fails with
BelowMinimum — refuting the claim that the minimum is only enforced on the
first join. -/
theorem C7_counterexample_repeat_join :
    0 < σjoined.deposits 1 ∧ 0 < 1 ∧
    joinGroupWithDeposit Hc σjoined 1 1 42 = .error .belowMinDeposit := by
  refine ⟨by decide, by decide, by rfl⟩

/-- C7 amended: joinGroupWithDeposit enforces the MIN_DEPOSIT floor on every
call, first join or not (in both the deposit-only and the credits variant);
when the amount meets the floor (and the Semaphore insert succeeds) the call
succeeds and adds the amount to the sender's balance, leaving every other
balance unchanged. -/
theorem C7_join_min_deposit (H : Nat → Nat → Nat) (σ : BoardState) (cσ : CreditState)
    (sender value identityCommitment : Nat) :
    (value ≤ σ.extBal sender → value < MIN_DEPOSIT →
      joinGroupWithDeposit H σ sender value identityCommitment = .error .belowMinDeposit) ∧
    (value ≤ cσ.extBal sender → value < MIN_DEPOSIT →
      joinGroupWithDepositCredits H cσ sender value identityCommitment
        = .error .belowMinDeposit) ∧
    (value ≤ σ.extBal sender → MIN_DEPOSIT ≤ value →
      ∀ sem', addMember H σ.sem σ.self σ.groupId identityCommitment = .ok sem' →
        ∃ σ', joinGroupWithDeposit H σ sender value identityCommitment = .ok σ' ∧
          σ'.deposits sender = σ.deposits sender + value ∧
          ∀ q, q ≠ sender → σ'.deposits q = σ.deposits q) := by
  refine ⟨fun hb hv => ?_, fun hb hv => ?_, fun hb hv sem' hadd => ?_⟩
  · simp [joinGroupWithDeposit, Nat.not_lt.2 hb, hv]
  · simp [joinGroupWithDepositCredits, Nat.not_lt.2 hb, hv]
  · have hok : joinGroupWithDeposit H σ sender value identityCommitment = .ok
        { σ with
          sem := sem',
          deposits := updF σ.deposits sender (σ.deposits sender + value),
          contractBal := σ.contractBal + value,
          extBal := updF σ.extBal sender (σ.extBal sender - value) } := by
      simp [joinGroupWithDeposit, Nat.not_lt.2 hb, Nat.not_lt.2 hv, hadd]
    exact ⟨_, hok, by simp [updF_same], fun q hq => by simp [updF_other _ _ _ _ hq]⟩

/-- A credits-variant state mirroring σjoined. -/
def cσjoined : CreditState :=
  { self := 2, groupId := 5, sem := semC,
    deposits := updF (fun _ => 0) 1 MIN_DEPOSIT,
    credits := updF (fun _ => 0) 1 50,
    contractBal := MIN_DEPOSIT, extBal := fun _ => MIN_DEPOSIT }

/-- C7 witness: both variants reject a 1-wei repeat join, and a MIN_DEPOSIT
join by the fresh principal 6 succeeds and credits exactly that principal. -/
theorem C7_join_min_deposit_witness :
    joinGroupWithDeposit Hc σjoined 1 1 42 = .error .belowMinDeposit ∧
    joinGroupWithDepositCredits Hc cσjoined 1 1 42 = .error .belowMinDeposit ∧
    ∃ σ', joinGroupWithDeposit Hc σjoined 6 MIN_DEPOSIT 42 = .ok σ' ∧
      σ'.deposits 6 = σjoined.deposits 6 + MIN_DEPOSIT ∧
      ∀ q, q ≠ 6 → σ'.deposits q = σjoined.deposits q := by
  obtain ⟨h1, h2, h3⟩ := C7_join_min_deposit Hc σjoined cσjoined 1 1 42
  obtain ⟨-, -, h3'⟩ := C7_join_min_deposit Hc σjoined cσjoined 6 MIN_DEPOSIT 42
  refine ⟨h1 (by decide) (by decide), h2 (by decide) (by decide), ?_⟩
  exact h3' (by decide) (by decide) _ (by rfl)

/-- C1 (code bug): the gateway's verification returns false for the pending
request of σpend under the all-rejecting verifier, yet executeRelay still
succeeds: it marks the nullifier used, marks the request executed, debits the
requester, pays the relayer and increments messageCount.  The boolean the
deployed Semaphore returns is silently discarded because the ISemaphore
interface used by ZKBoard declares verifyProof without a return value. -/
theorem C1_invalid_proof_still_commits :
    verifyProofSem Vfalse σpend.sem σpend.groupId reqC.merkleTreeRoot
        (signalOfRelay ksc reqC.message) reqC.nullifierHash reqC.messageIndex reqC.proof
      = .ok false ∧
    executeRelay Vfalse ksc σpend 9 0 = .ok σdone ∧
    σdone.nullifierHashes 3 = true ∧
    (σdone.relayRequests 0).executed = true ∧
    σdone.messageCount = σpend.messageCount + 1 ∧
    σdone.deposits 1 = σpend.deposits 1 - COST_PER_MESSAGE ∧
    σdone.extBal 9 = σpend.extBal 9 + COST_PER_MESSAGE := by
  refine ⟨by rfl, by rfl, by decide, by decide, by rfl, by rfl, by rfl⟩

/-- Extract the success state of an Except, with a fallback. -/
def okOr {ε α : Type} (dflt : α) : Except ε α → α
  | .ok a => a
  | .error _ => dflt

/-- Any single successful Semaphore operation preserves every recorded valid
root. -/
theorem semApply_validRoots_mono (H : Nat → Nat → Nat) (kw : Nat → Nat) (V : VerifierT)
    (σ : SemState) (op : SemOp) (σ' : SemState) (hop : semApply H kw V σ op = .ok σ')
    (gid r : Nat) (h : σ.validRoots gid r = true) : σ'.validRoots gid r = true := by
  cases op with
  | create gid2 d a =>
    obtain ⟨-, -, -, hσ'⟩ := createGroup_ok H kw σ gid2 d a σ' hop
    subst hσ'
    exact updF2_mono _ _ _ _ _ h
  | add c gid2 comm =>
    obtain ⟨-, -, hσ'⟩ := addMember_ok H σ c gid2 comm σ' hop
    subst hσ'
    exact updF2_mono _ _ _ _ _ h
  | updAdmin c gid2 na =>
    simp only [semApply, updateGroupAdmin] at hop
    split at hop
    · exact absurd hop (by simp)
    injection hop with hop
    subst hop
    exact h
  | verify gid2 root sig nh ext proof =>
    simp only [semApply] at hop
    cases hv : verifyProofSem V σ gid2 root sig nh ext proof with
    | error e => rw [hv] at hop; exact absurd hop (by simp [Except.map])
    | ok b =>
      rw [hv] at hop
      simp only [Except.map] at hop
      injection hop with hop
      subst hop
      exact h

/-- One step with revert semantics preserves every recorded valid root. -/
theorem semRun1_validRoots_mono (H : Nat → Nat → Nat) (kw : Nat → Nat) (V : VerifierT)
    (σ : SemState) (op : SemOp) (gid r : Nat) (h : σ.validRoots gid r = true) :
    (semRun1 H kw V σ op).validRoots gid r = true := by
  unfold semRun1
  cases hop : semApply H kw V σ op with
  | error e => exact h
  | ok σ' => exact semApply_validRoots_mono H kw V σ op σ' hop gid r h

/-- Any run of Semaphore operations preserves every recorded valid root. -/
theorem semRun_validRoots_mono (H : Nat → Nat → Nat) (kw : Nat → Nat) (V : VerifierT) :
    ∀ (ops : List SemOp) (σ : SemState) (gid r : Nat), σ.validRoots gid r = true →
      (semRun H kw V σ ops).validRoots gid r = true := by
  intro ops
  induction ops with
  | nil => intro σ gid r h; exact h
  | cons op ops ih =>
    intro σ gid r h
    exact ih _ gid r (semRun1_validRoots_mono H kw V σ op gid r h)

/-- C4: every successful insert increases the group's size by exactly one and
records the new root; across every sequence of createGroup, addMember,
updateGroupAdmin and verifyProof calls, the valid-root set is append-only —
once a (groupId, root) pair is marked valid it stays valid forever. -/
theorem C4_tree_append_only (H : Nat → Nat → Nat) (kw : Nat → Nat) (V : VerifierT) :
    (∀ (σ : SemState) (caller gid c : Nat) (σ' : SemState),
      addMember H σ caller gid c = .ok σ' →
        (σ'.groups gid).size = (σ.groups gid).size + 1 ∧
        σ'.validRoots gid ((σ'.groups gid).root) = true) ∧
    (∀ (σ : SemState) (ops : List SemOp) (gid r : Nat),
      σ.validRoots gid r = true → (semRun H kw V σ ops).validRoots gid r = true) := by
  constructor
  · intro σ caller gid c σ' h
    obtain ⟨-, -, hσ'⟩ := addMember_ok H σ caller gid c σ' h
    subst hσ'
    constructor
    · simp [updF_same]
    · simp [updF_same, updF2]
  · intro σ ops gid r h
    exact semRun_validRoots_mono H kw V ops σ gid r h

/-- The Semaphore state after inserting commitment 99 into group 5 of semC. -/
def semCafterAdd : SemState := okOr semC (addMember Hc semC 2 5 99)

/-- C4 witness: inserting into the concrete group 5 bumps its size from 0 to 1
and records the new root; the previously valid root 7 stays valid across a
concrete run of all four operation kinds. -/
theorem C4_tree_append_only_witness :
    ((semCafterAdd.groups 5).size = (semC.groups 5).size + 1 ∧
      semCafterAdd.validRoots 5 ((semCafterAdd.groups 5).root) = true) ∧
    (semRun Hc kwc Vtrue semC
        [SemOp.add 2 5 99, SemOp.create 6 2 1, SemOp.updAdmin 2 5 3,
         SemOp.verify 5 7 0 3 0 pf0]).validRoots 5 7 = true := by
  constructor
  · exact (C4_tree_append_only Hc kwc Vtrue).1 semC 2 5 99 semCafterAdd (by rfl)
  · exact (C4_tree_append_only Hc kwc Vtrue).2 semC _ 5 7 (by decide)

/-- The insert loop performs exactly one Poseidon hash per remaining level. -/
theorem addMemberLoop_count (H : Nat → Nat → Nat) (zeros : Nat → Nat) :
    ∀ (rem i : Nat) (filled : Nat → Nat) (idx node : Nat),
      (addMemberLoop H zeros i rem filled idx node).2.2 = rem := by
  intro rem
  induction rem with
  | zero => intro i filled idx node; rfl
  | succ rem ih =>
    intro i filled idx node
    simp only [addMemberLoop]
    split
    · simp [ih]
    · simp [ih]

/-- parityFold only reads `filled` at levels at or above its starting level. -/
theorem parityFold_congr (H : Nat → Nat → Nat) (zeros : Nat → Nat) :
    ∀ (rem i : Nat) (f g : Nat → Nat) (idx node : Nat),
      (∀ j, i ≤ j → f j = g j) →
      parityFold H zeros f i rem idx node = parityFold H zeros g i rem idx node := by
  intro rem
  induction rem with
  | zero => intro i f g idx node hfg; rfl
  | succ rem ih =>
    intro i f g idx node hfg
    simp only [parityFold]
    split
    · exact ih (i + 1) f g _ _ fun j hj => hfg j (by omega)
    · rw [hfg i le_rfl]
      exact ih (i + 1) f g _ _ fun j hj => hfg j (by omega)

/-- The running hash computed by the insert loop is the parity-directed fold
over the original filledSubtrees (the level-i write is never read again within
the same insertion). -/
theorem addMemberLoop_root (H : Nat → Nat → Nat) (zeros : Nat → Nat) :
    ∀ (rem i : Nat) (filled : Nat → Nat) (idx node : Nat),
      (addMemberLoop H zeros i rem filled idx node).2.1
        = parityFold H zeros filled i rem idx node := by
  intro rem
  induction rem with
  | zero => intro i filled idx node; rfl
  | succ rem ih =>
    intro i filled idx node
    simp only [addMemberLoop, parityFold]
    split
    · rw [ih]
      exact parityFold_congr H zeros rem (i + 1) _ _ _ _
        fun j hj => updF_other _ _ _ _ (by omega)
    · rw [ih]

/-- Level-by-level characterisation of the filledSubtrees mapping after the
insert loop: level j is overwritten with the running hash of level j exactly
when the index at level j is even; all other levels keep their old value. -/
theorem addMemberLoop_filled (H : Nat → Nat → Nat) (zeros : Nat → Nat) :
    ∀ (rem i : Nat) (filled : Nat → Nat) (idx node j : Nat),
      (addMemberLoop H zeros i rem filled idx node).1 j
        = if i ≤ j ∧ j < i + rem ∧ (idx / 2 ^ (j - i)) % 2 = 0
          then parityFold H zeros filled i (j - i) idx node
          else filled j := by
  intro rem
  induction rem with
  | zero =>
    intro i filled idx node j
    rw [if_neg (by omega)]
    rfl
  | succ rem ih =>
    intro i filled idx node j
    simp only [addMemberLoop]
    split
    case isTrue heven =>
      show (addMemberLoop H zeros (i + 1) rem (updF filled i node) (idx / 2) (H node (zeros i))).1 j = _
      rw [ih (i + 1) (updF filled i node) (idx / 2) (H node (zeros i)) j]
      rcases Nat.lt_trichotomy j i with hj | hj | hj
      · rw [if_neg (by omega), if_neg (by omega), updF_other _ _ _ _ (by omega)]
      · subst hj
        rw [if_neg (by omega), if_pos ⟨le_rfl, by omega, by simpa using heven⟩]
        simp [updF_same, parityFold]
      · have hdiv : idx / 2 / 2 ^ (j - (i + 1)) = idx / 2 ^ (j - i) := by
          rw [Nat.div_div_eq_div_mul]
          congr 1
          have hji : j - i = (j - (i + 1)) + 1 := by omega
          rw [hji, pow_succ']
        by_cases hcond : j < i + 1 + rem ∧ (idx / 2 ^ (j - i)) % 2 = 0
        · rw [if_pos ⟨by omega, by omega, by rw [hdiv]; exact hcond.2⟩,
            if_pos ⟨by omega, by omega, hcond.2⟩]
          have hcg : parityFold H zeros (updF filled i node) (i + 1) (j - (i + 1)) (idx / 2)
              (H node (zeros i)) = parityFold H zeros filled (i + 1) (j - (i + 1)) (idx / 2)
              (H node (zeros i)) :=
            parityFold_congr H zeros _ _ _ _ _ _ fun k hk => updF_other _ _ _ _ (by omega)
          rw [hcg]
          have hji : j - i = (j - (i + 1)) + 1 := by omega
          rw [hji]
          simp only [parityFold]
          rw [if_pos heven]
        · rw [if_neg (by rw [hdiv]; omega), if_neg (by omega), updF_other _ _ _ _ (by omega)]
    case isFalse hodd =>
      show (addMemberLoop H zeros (i + 1) rem filled (idx / 2) (H (filled i) node)).1 j = _
      rw [ih (i + 1) filled (idx / 2) (H (filled i) node) j]
      rcases Nat.lt_trichotomy j i with hj | hj | hj
      · rw [if_neg (by omega), if_neg (by omega)]
      · subst hj
        rw [if_neg (by omega), if_neg (by simp; omega)]
      · have hdiv : idx / 2 / 2 ^ (j - (i + 1)) = idx / 2 ^ (j - i) := by
          rw [Nat.div_div_eq_div_mul]
          congr 1
          have hji : j - i = (j - (i + 1)) + 1 := by omega
          rw [hji, pow_succ']
        by_cases hcond : j < i + 1 + rem ∧ (idx / 2 ^ (j - i)) % 2 = 0
        · rw [if_pos ⟨by omega, by omega, by rw [hdiv]; exact hcond.2⟩,
            if_pos ⟨by omega, by omega, hcond.2⟩]
          have hji : j - i = (j - (i + 1)) + 1 := by omega
          rw [hji]
          simp only [parityFold]
          rw [if_neg hodd]
        · rw [if_neg (by rw [hdiv]; omega), if_neg (by omega)]

/-- The claimed postcondition of a successful insert: the new root is the
parity-directed fold started from the new commitment at index = old size,
exactly depth hashes are performed, size grows by one, the new root is
recorded valid, and filledSubtrees is rewritten at level j with the level-j
running hash exactly when the level-j index is even. -/
def InsertSpec (H : Nat → Nat → Nat) (σ : SemState) (caller gid c : Nat) : Prop :=
  ∃ σ', addMember H σ caller gid c = .ok σ' ∧
    (σ'.groups gid).root
      = parityFold H (σ.groups gid).zeros (σ.groups gid).filledSubtrees 0
          (σ.groups gid).depth (σ.groups gid).size c ∧
    (σ'.groups gid).size = (σ.groups gid).size + 1 ∧
    σ'.validRoots gid ((σ'.groups gid).root) = true ∧
    (addMemberLoop H (σ.groups gid).zeros 0 (σ.groups gid).depth
      (σ.groups gid).filledSubtrees (σ.groups gid).size c).2.2 = (σ.groups gid).depth ∧
    (∀ j, j < (σ.groups gid).depth →
      (σ'.groups gid).filledSubtrees j
        = if ((σ.groups gid).size / 2 ^ j) % 2 = 0
          then parityFold H (σ.groups gid).zeros (σ.groups gid).filledSubtrees 0 j
                 (σ.groups gid).size c
          else (σ.groups gid).filledSubtrees j) ∧
    (∀ j, (σ.groups gid).depth ≤ j →
      (σ'.groups gid).filledSubtrees j = (σ.groups gid).filledSubtrees j)

/-- C3: for every group whose caller is the admin and whose tree is not full,
addMember succeeds and satisfies the parity-directed-fold postcondition
InsertSpec. -/
theorem C3_insert_parity_fold (H : Nat → Nat → Nat) (σ : SemState) (caller gid c : Nat)
    (hadm : (σ.groups gid).admin = caller)
    (hsz : (σ.groups gid).size < 2 ^ (σ.groups gid).depth) :
    InsertSpec H σ caller gid c := by
  have hfilled := addMemberLoop_filled H (σ.groups gid).zeros (σ.groups gid).depth 0
    (σ.groups gid).filledSubtrees (σ.groups gid).size c
  refine ⟨{ groups := updF σ.groups gid
              { σ.groups gid with
                root := (addMemberLoop H (σ.groups gid).zeros 0 (σ.groups gid).depth
                  (σ.groups gid).filledSubtrees (σ.groups gid).size c).2.1,
                size := (σ.groups gid).size + 1,
                filledSubtrees := (addMemberLoop H (σ.groups gid).zeros 0 (σ.groups gid).depth
                  (σ.groups gid).filledSubtrees (σ.groups gid).size c).1 },
            validRoots := updF2 σ.validRoots gid
              (addMemberLoop H (σ.groups gid).zeros 0 (σ.groups gid).depth
                (σ.groups gid).filledSubtrees (σ.groups gid).size c).2.1 true },
    ?_, ?_, ?_, ?_, ?_, ?_, ?_⟩
  · simp [addMember, hadm, hsz]
  · simp only [updF_same]
    exact addMemberLoop_root H (σ.groups gid).zeros (σ.groups gid).depth 0
      (σ.groups gid).filledSubtrees (σ.groups gid).size c
  · simp [updF_same]
  · simp [updF_same, updF2]
  · exact addMemberLoop_count H (σ.groups gid).zeros (σ.groups gid).depth 0
      (σ.groups gid).filledSubtrees (σ.groups gid).size c
  · intro j hj
    simp only [updF_same]
    rw [hfilled j]
    simp only [Nat.sub_zero, Nat.zero_add, Nat.zero_le, true_and]
    by_cases hpar : ((σ.groups gid).size / 2 ^ j) % 2 = 0
    · rw [if_pos ⟨hj, hpar⟩, if_pos hpar]
    · rw [if_neg (by omega), if_neg hpar]
  · intro j hj
    simp only [updF_same]
    rw [hfilled j]
    rw [if_neg (by omega)]

/-- C3 witness: inserting commitment 99 into the concrete group 5 of semC
(admin 2, depth 20, size 0) satisfies the insert postcondition. -/
theorem C3_insert_parity_fold_witness :
    (semC.groups 5).admin = 2 ∧
    (semC.groups 5).size < 2 ^ (semC.groups 5).depth ∧
    InsertSpec Hc semC 2 5 99 :=
  ⟨by decide, by decide, C3_insert_parity_fold Hc semC 2 5 99 (by decide) (by decide)⟩

/-- Boolean success test for an Except result. -/
def isOkE {ε α : Type} : Except ε α → Bool
  | .ok _ => true
  | .error _ => false

/-- A point update to true preserves existing true entries. -/
theorem updF_true_mono (f : Nat → Bool) (i a : Nat) (h : f a = true) :
    updF f i true a = true := by
  unfold updF
  split <;> simp [h]

/-- Whether a transaction references nullifier n: an executeRelay whose stored
request carries n, or a postMessageDirect whose argument is n. -/
def opRefsNullifier (σ : BoardState) (n : Nat) : BoardOp → Bool
  | .execute _ requestId => (σ.relayRequests requestId).nullifierHash == n
  | .postDirect _ _ nh _ _ _ => nh == n
  | _ => false

/-- Number of successful executeRelay/postMessageDirect transactions
referencing nullifier n along a serialized run. -/
def nullifierUseCount (H : Nat → Nat → Nat) (kw : Nat → Nat) (ks : List Nat → Nat)
    (V : VerifierT) (n : Nat) : BoardState → List BoardOp → Nat
  | _, [] => 0
  | σ, op :: ops =>
    (if opRefsNullifier σ n op && isOkE (boardApply H kw ks V σ op) then 1 else 0)
      + nullifierUseCount H kw ks V n (boardRun1 H kw ks V σ op) ops

/-- No single successful transaction ever clears a recorded nullifier. -/
theorem boardApply_nullifier_mono (H : Nat → Nat → Nat) (kw : Nat → Nat)
    (ks : List Nat → Nat) (V : VerifierT) (σ : BoardState) (op : BoardOp)
    (σ' : BoardState) (hop : boardApply H kw ks V σ op = .ok σ') (n : Nat)
    (h : σ.nullifierHashes n = true) : σ'.nullifierHashes n = true := by
  cases op with
  | init s =>
    obtain ⟨-, sem', -, hσ'⟩ := initializeBoard_ok H kw σ σ' hop
    subst hσ'
    exact h
  | join s v c =>
    obtain ⟨-, -, sem', -, hσ'⟩ := joinGroupWithDeposit_ok H σ s v c σ' hop
    subst hσ'
    exact h
  | createReq s root nh proof msg fee idx =>
    obtain ⟨-, -, -, -, hσ'⟩ := createRelayRequest_ok σ s root nh proof msg fee idx σ' hop
    subst hσ'
    exact h
  | execute s requestId =>
    obtain ⟨-, -, -, -, -, -, hσ'⟩ := executeRelay_ok V ks σ s requestId σ' hop
    subst hσ'
    exact updF_true_mono _ _ _ h
  | postDirect s root nh proof msg idx =>
    obtain ⟨-, -, -, -, hσ'⟩ := postMessageDirect_ok V ks σ s root nh proof msg idx σ' hop
    subst hσ'
    exact updF_true_mono _ _ _ h
  | topUp s v =>
    obtain ⟨-, -, hσ'⟩ := topUpDeposit_ok σ s v σ' hop
    subst hσ'
    exact h
  | withdraw s =>
    obtain ⟨-, -, hσ'⟩ := withdrawDeposit_ok σ s σ' hop
    subst hσ'
    exact h

/-- One step with revert semantics preserves recorded nullifiers. -/
theorem boardRun1_nullifier_mono (H : Nat → Nat → Nat) (kw : Nat → Nat)
    (ks : List Nat → Nat) (V : VerifierT) (σ : BoardState) (op : BoardOp) (n : Nat)
    (h : σ.nullifierHashes n = true) :
    (boardRun1 H kw ks V σ op).nullifierHashes n = true := by
  unfold boardRun1
  cases hop : boardApply H kw ks V σ op with
  | error e => exact h
  | ok σ' => exact boardApply_nullifier_mono H kw ks V σ op σ' hop n h

/-- A successful transaction referencing n requires n to be fresh and records
it. -/
theorem boardApply_refs_ok (H : Nat → Nat → Nat) (kw : Nat → Nat)
    (ks : List Nat → Nat) (V : VerifierT) (σ : BoardState) (op : BoardOp)
    (σ' : BoardState) (n : Nat) (href : opRefsNullifier σ n op = true)
    (hop : boardApply H kw ks V σ op = .ok σ') :
    σ.nullifierHashes n = false ∧ σ'.nullifierHashes n = true := by
  cases op with
  | execute s requestId =>
    simp only [opRefsNullifier, beq_iff_eq] at href
    obtain ⟨-, -, hfresh, -, -, -, hσ'⟩ := executeRelay_ok V ks σ s requestId σ' hop
    subst hσ'
    subst href
    exact ⟨hfresh, by simp [updF_same]⟩
  | postDirect s root nh proof msg idx =>
    simp only [opRefsNullifier, beq_iff_eq] at href
    obtain ⟨-, -, hfresh, -, hσ'⟩ := postMessageDirect_ok V ks σ s root nh proof msg idx σ' hop
    subst hσ'
    subst href
    exact ⟨hfresh, by simp [updF_same]⟩
  | init s => exact absurd href (by simp [opRefsNullifier])
  | join s v c => exact absurd href (by simp [opRefsNullifier])
  | createReq s root nh proof msg fee idx => exact absurd href (by simp [opRefsNullifier])
  | topUp s v => exact absurd href (by simp [opRefsNullifier])
  | withdraw s => exact absurd href (by simp [opRefsNullifier])

/-- Once n is recorded, no later transaction referencing n succeeds. -/
theorem nullifierUseCount_zero (H : Nat → Nat → Nat) (kw : Nat → Nat)
    (ks : List Nat → Nat) (V : VerifierT) (n : Nat) :
    ∀ (ops : List BoardOp) (σ : BoardState), σ.nullifierHashes n = true →
      nullifierUseCount H kw ks V n σ ops = 0 := by
  intro ops
  induction ops with
  | nil => intro σ h; rfl
  | cons op ops ih =>
    intro σ h
    simp only [nullifierUseCount]
    have hz : (if opRefsNullifier σ n op && isOkE (boardApply H kw ks V σ op) then 1 else 0) = 0 := by
      split
      case isTrue hc =>
        simp only [Bool.and_eq_true] at hc
        cases hap : boardApply H kw ks V σ op with
        | error e => rw [hap] at hc; exact absurd hc.2 (by simp [isOkE])
        | ok σ' =>
          obtain ⟨hfresh, -⟩ := boardApply_refs_ok H kw ks V σ op σ' n hc.1 hap
          rw [h] at hfresh
          exact absurd hfresh (by simp)
      case isFalse => rfl
    rw [hz, Nat.zero_add]
    exact ih _ (boardRun1_nullifier_mono H kw ks V σ op n h)

/-- Across any serialized run, at most one transaction referencing n
succeeds. -/
theorem nullifierUseCount_le_one (H : Nat → Nat → Nat) (kw : Nat → Nat)
    (ks : List Nat → Nat) (V : VerifierT) (n : Nat) :
    ∀ (ops : List BoardOp) (σ : BoardState), nullifierUseCount H kw ks V n σ ops ≤ 1 := by
  intro ops
  induction ops with
  | nil => intro σ; simp [nullifierUseCount]
  | cons op ops ih =>
    intro σ
    simp only [nullifierUseCount]
    split
    case isTrue hc =>
      simp only [Bool.and_eq_true] at hc
      cases hap : boardApply H kw ks V σ op with
      | error e => rw [hap] at hc; exact absurd hc.2 (by simp [isOkE])
      | ok σ' =>
        obtain ⟨-, hset⟩ := boardApply_refs_ok H kw ks V σ op σ' n hc.1 hap
        have hrun : boardRun1 H kw ks V σ op = σ' := by
          unfold boardRun1
          rw [hap]
        rw [hrun, nullifierUseCount_zero H kw ks V n ops σ' hset]
    case isFalse =>
      rw [Nat.zero_add]
      exact ih _

/-- C2 counterexample: request 0 of σpend (nullifier 3) executes successfully;
the subsequent executeRelay call on the same request — a call referencing
nullifier 3 — fails with AlreadyExecuted, not with NullifierAlreadyUsed, so
"every subsequent call referencing n fails with NullifierAlreadyUsed" is false
as stated. -/
theorem C2_counterexample_already_executed :
    executeRelay Vtrue ksc σpend 9 0 = .ok σdone ∧
    (σdone.relayRequests 0).nullifierHash = 3 ∧
    executeRelay Vtrue ksc σdone 9 0 = .error .alreadyExecuted ∧
    BoardErr.alreadyExecuted ≠ BoardErr.nullifierUsed :=
  ⟨by rfl, by decide, by rfl, by decide⟩

/-- C2 amended: for every nullifier n, across every serialized run of board
transactions at most one executeRelay/postMessageDirect referencing n
succeeds; once the nullifier set maps n to true it is never cleared by any
transaction; after n is recorded no referencing call succeeds at all; and a
call referencing n that passes its earlier checks (existence/executed for
executeRelay, deposit/index for postMessageDirect) fails precisely with
NullifierAlreadyUsed. -/
theorem C2_nullifier_single_use (H : Nat → Nat → Nat) (kw : Nat → Nat)
    (ks : List Nat → Nat) (V : VerifierT) (n : Nat) :
    (∀ (σ : BoardState) (op : BoardOp), σ.nullifierHashes n = true →
      (boardRun1 H kw ks V σ op).nullifierHashes n = true) ∧
    (∀ (σ : BoardState) (ops : List BoardOp), nullifierUseCount H kw ks V n σ ops ≤ 1) ∧
    (∀ (σ : BoardState) (ops : List BoardOp), σ.nullifierHashes n = true →
      nullifierUseCount H kw ks V n σ ops = 0) ∧
    (∀ (σ : BoardState) (sender requestId : Nat),
      (σ.relayRequests requestId).executed = false →
      (σ.relayRequests requestId).requester ≠ 0 →
      (σ.relayRequests requestId).nullifierHash = n →
      σ.nullifierHashes n = true →
      executeRelay V ks σ sender requestId = .error .nullifierUsed) ∧
    (∀ (σ : BoardState) (sender merkleTreeRoot : Nat) (proof : Fin 8 → Nat)
        (message : List Nat) (messageIndex : Nat),
      COST_PER_MESSAGE ≤ σ.deposits sender →
      messageIndex = σ.messageCounter →
      σ.nullifierHashes n = true →
      postMessageDirect V ks σ sender merkleTreeRoot n proof message messageIndex
        = .error .nullifierUsed) := by
  refine ⟨fun σ op h => boardRun1_nullifier_mono H kw ks V σ op n h,
    fun σ ops => nullifierUseCount_le_one H kw ks V n ops σ,
    fun σ ops h => nullifierUseCount_zero H kw ks V n ops σ h,
    fun σ sender requestId hex hrq hnh hused => ?_,
    fun σ sender root proof msg idx hdep hidx hused => ?_⟩
  · simp [executeRelay, hex, hrq, hnh, hused]
  · simp [postMessageDirect, Nat.not_lt.2 hdep, hidx, hused]

/-- σdone with a second, still-pending request (id 1) sharing nullifier 3. -/
def σused : BoardState :=
  { σdone with relayRequests := updF σdone.relayRequests 1 reqC }

/-- σdone with principal 6 funded to post directly. -/
def σd2 : BoardState :=
  { σdone with deposits := updF σdone.deposits 6 COST_PER_MESSAGE }

/-- C2 witness: concrete instances of the amended statement — the recorded
nullifier survives another step, a concrete two-execution run uses nullifier 3
at most once and, once recorded, zero times, and both referencing calls whose
earlier checks pass fail with NullifierAlreadyUsed. -/
theorem C2_nullifier_single_use_witness :
    (boardRun1 Hc kwc ksc Vtrue σdone (BoardOp.withdraw 9)).nullifierHashes 3 = true ∧
    nullifierUseCount Hc kwc ksc Vtrue 3 σpend
      [BoardOp.execute 9 0, BoardOp.execute 8 0] ≤ 1 ∧
    nullifierUseCount Hc kwc ksc Vtrue 3 σdone [BoardOp.execute 8 0] = 0 ∧
    executeRelay Vtrue ksc σused 9 1 = .error .nullifierUsed ∧
    postMessageDirect Vtrue ksc σd2 6 7 3 pf0 [] 1 = .error .nullifierUsed := by
  obtain ⟨h1, h2, h3, h4, h5⟩ := C2_nullifier_single_use Hc kwc ksc Vtrue 3
  refine ⟨h1 σdone (BoardOp.withdraw 9) (by decide), h2 σpend _, h3 σdone _ (by decide),
    h4 σused 9 1 (by decide) (by decide) (by decide) (by decide),
    h5 σd2 6 7 pf0 [] 1 (by decide) (by decide) (by decide)⟩
/-- countP respects pointwise-equal predicates. -/
theorem countP_congr_eq (p q : Nat → Bool) (l : List Nat) (h : ∀ x ∈ l, p x = q x) :
    l.countP p = l.countP q :=
  List.countP_congr fun x hx => by rw [h x hx]

/-- Flipping one in-range entry of a predicate from true to false lowers the
countP over an initial segment by exactly one. -/
theorem countP_flip (p q : Nat → Bool) :
    ∀ (n k : Nat), k < n → (∀ j, j ≠ k → p j = q j) → p k = true → q k = false →
      List.countP p (List.range n) = List.countP q (List.range n) + 1 := by
  intro n
  induction n with
  | zero => intro k hk _ _ _; omega
  | succ m ih =>
    intro k hk hpq hpk hqk
    rw [List.range_succ, List.countP_append, List.countP_append]
    by_cases hkn : k = m
    · have hcong : List.countP p (List.range m) = List.countP q (List.range m) :=
        countP_congr_eq p q _ fun x hx => hpq x (by have := List.mem_range.1 hx; omega)
      have hp1 : List.countP p [m] = 1 := by simp [List.countP_cons, hkn ▸ hpk]
      have hq0 : List.countP q [m] = 0 := by simp [List.countP_cons, hkn ▸ hqk]
      omega
    · have hlast : List.countP p [m] = List.countP q [m] := by
        simp [List.countP_cons, hpq m (by omega)]
      have := ih k (by omega) hpq hpk hqk
      omega

/-- The inductive counter invariant of the deposit-only board: slots at or
beyond nextRequestId are unwritten, and the externalNullifier counter always
equals the posted-message count plus the number of pending requests. -/
def CounterInv (σ : BoardState) : Prop :=
  (∀ id, σ.nextRequestId ≤ id → σ.relayRequests id = RelayRequest.default0) ∧
  σ.messageCounter = σ.messageCount + pendingCount σ

/-- A successful transaction from a non-zero sender preserves CounterInv. -/
theorem boardApply_counterInv (H : Nat → Nat → Nat) (kw : Nat → Nat)
    (ks : List Nat → Nat) (V : VerifierT) (σ : BoardState) (op : BoardOp)
    (σ' : BoardState) (hs : op.sender ≠ 0)
    (hop : boardApply H kw ks V σ op = .ok σ') (hinv : CounterInv σ) :
    CounterInv σ' := by
  obtain ⟨hI1, hI2⟩ := hinv
  cases op with
  | init s =>
    obtain ⟨-, sem', -, hσ'⟩ := initializeBoard_ok H kw σ σ' hop
    subst hσ'
    exact ⟨hI1, hI2⟩
  | join s v c =>
    obtain ⟨-, -, sem', -, hσ'⟩ := joinGroupWithDeposit_ok H σ s v c σ' hop
    subst hσ'
    exact ⟨hI1, hI2⟩
  | topUp s v =>
    obtain ⟨-, -, hσ'⟩ := topUpDeposit_ok σ s v σ' hop
    subst hσ'
    exact ⟨hI1, hI2⟩
  | withdraw s =>
    obtain ⟨-, -, hσ'⟩ := withdrawDeposit_ok σ s σ' hop
    subst hσ'
    exact ⟨hI1, hI2⟩
  | postDirect s root nh proof msg idx =>
    obtain ⟨-, -, -, -, hσ'⟩ := postMessageDirect_ok V ks σ s root nh proof msg idx σ' hop
    subst hσ'
    refine ⟨fun id h => hI1 id h, ?_⟩
    show σ.messageCounter + 1 = σ.messageCount + 1 + pendingCount σ
    omega
  | createReq s root nh proof msg fee idx =>
    obtain ⟨-, -, -, -, hσ'⟩ := createRelayRequest_ok σ s root nh proof msg fee idx σ' hop
    have hsender : s ≠ 0 := hs
    subst hσ'
    constructor
    · intro id hid
      have hid' : σ.nextRequestId + 1 ≤ id := hid
      show updF σ.relayRequests σ.nextRequestId
        { merkleTreeRoot := root, nullifierHash := nh, proof := proof, message := msg,
          relayFee := fee, requester := s, executed := false, messageIndex := idx } id
          = RelayRequest.default0
      rw [updF_other _ _ _ _ (by omega)]
      exact hI1 id (by omega)
    · show σ.messageCounter + 1
        = σ.messageCount + (List.range (σ.nextRequestId + 1)).countP (fun id =>
            ((updF σ.relayRequests σ.nextRequestId
              { merkleTreeRoot := root, nullifierHash := nh, proof := proof, message := msg,
                relayFee := fee, requester := s, executed := false, messageIndex := idx }) id).requester
              != 0 && !((updF σ.relayRequests σ.nextRequestId
              { merkleTreeRoot := root, nullifierHash := nh, proof := proof, message := msg,
                relayFee := fee, requester := s, executed := false, messageIndex := idx }) id).executed)
      simp only [pendingCount] at hI2
      rw [List.range_succ, List.countP_append]
      have hcong : List.countP (fun id =>
          ((updF σ.relayRequests σ.nextRequestId
            { merkleTreeRoot := root, nullifierHash := nh, proof := proof, message := msg,
              relayFee := fee, requester := s, executed := false, messageIndex := idx }) id).requester
            != 0 && !((updF σ.relayRequests σ.nextRequestId
            { merkleTreeRoot := root, nullifierHash := nh, proof := proof, message := msg,
              relayFee := fee, requester := s, executed := false, messageIndex := idx }) id).executed)
          (List.range σ.nextRequestId)
          = List.countP (fun id => (σ.relayRequests id).requester != 0
            && !(σ.relayRequests id).executed) (List.range σ.nextRequestId) := by
        refine countP_congr_eq _ _ _ fun x hx => ?_
        rw [updF_other _ _ _ _ (by have := List.mem_range.1 hx; omega)]
      have hnew : List.countP (fun id =>
          ((updF σ.relayRequests σ.nextRequestId
            { merkleTreeRoot := root, nullifierHash := nh, proof := proof, message := msg,
              relayFee := fee, requester := s, executed := false, messageIndex := idx }) id).requester
            != 0 && !((updF σ.relayRequests σ.nextRequestId
            { merkleTreeRoot := root, nullifierHash := nh, proof := proof, message := msg,
              relayFee := fee, requester := s, executed := false, messageIndex := idx }) id).executed)
          [σ.nextRequestId] = 1 := by
        simp [List.countP_cons, updF_same, hsender]
      rw [hcong, hnew]
      omega
  | execute s requestId =>
    obtain ⟨hex, hrq, -, -, -, -, hσ'⟩ := executeRelay_ok V ks σ s requestId σ' hop
    have hlt : requestId < σ.nextRequestId := by
      by_contra hge
      rw [hI1 requestId (by omega)] at hrq
      exact hrq rfl
    subst hσ'
    constructor
    · intro id hid
      have hid' : σ.nextRequestId ≤ id := hid
      show updF σ.relayRequests requestId
        { σ.relayRequests requestId with executed := true } id = RelayRequest.default0
      rw [updF_other _ _ _ _ (by omega)]
      exact hI1 id hid'
    · show σ.messageCounter
        = σ.messageCount + 1 + (List.range σ.nextRequestId).countP (fun id =>
            ((updF σ.relayRequests requestId
              { σ.relayRequests requestId with executed := true }) id).requester != 0
            && !((updF σ.relayRequests requestId
              { σ.relayRequests requestId with executed := true }) id).executed)
      simp only [pendingCount] at hI2
      have hflip := countP_flip
        (fun id => (σ.relayRequests id).requester != 0 && !(σ.relayRequests id).executed)
        (fun id =>
          ((updF σ.relayRequests requestId
            { σ.relayRequests requestId with executed := true }) id).requester != 0
          && !((updF σ.relayRequests requestId
            { σ.relayRequests requestId with executed := true }) id).executed)
        σ.nextRequestId requestId hlt
        (fun j hj => by simp only [updF_other _ _ _ _ hj])
        (by simp [hex]; simpa using hrq)
        (by simp [updF_same])
      omega

/-- CounterInv is preserved along any run whose transactions come from
non-zero senders. -/
theorem boardRun_counterInv (H : Nat → Nat → Nat) (kw : Nat → Nat)
    (ks : List Nat → Nat) (V : VerifierT) :
    ∀ (ops : List BoardOp) (σ : BoardState), (∀ op ∈ ops, op.sender ≠ 0) →
      CounterInv σ → CounterInv (boardRun H kw ks V σ ops) := by
  intro ops
  induction ops with
  | nil => intro σ _ h; exact h
  | cons op ops ih =>
    intro σ hs h
    refine ih _ (fun o ho => hs o (List.mem_cons_of_mem _ ho)) ?_
    unfold boardRun1
    cases hop : boardApply H kw ks V σ op with
    | error e => exact h
    | ok σ' =>
      exact boardApply_counterInv H kw ks V σ op σ' (hs op (List.mem_cons_self _ _)) hop h

/-- A freshly deployed board satisfies CounterInv. -/
theorem initialBoard_counterInv (self gid : Nat) (wealth : Nat → Nat) :
    CounterInv (initialBoard self gid wealth) :=
  ⟨fun _ _ => rfl, rfl⟩

/-- C9: in every reachable state of the deposit-only board (transactions from
non-zero senders), messageCounter = messageCount + pendingCount, hence
messageCount ≤ messageCounter and the gap is the number of
created-but-never-executed requests; createRelayRequest bumps only the
counter, executeRelay bumps only the posted count while flipping a distinct
pending request to executed, and postMessageDirect bumps both. -/
theorem C9_message_count_bound (H : Nat → Nat → Nat) (kw : Nat → Nat)
    (ks : List Nat → Nat) (V : VerifierT) :
    (∀ (self gid : Nat) (wealth : Nat → Nat) (ops : List BoardOp),
      (∀ op ∈ ops, op.sender ≠ 0) →
      (boardRun H kw ks V (initialBoard self gid wealth) ops).messageCounter
        = (boardRun H kw ks V (initialBoard self gid wealth) ops).messageCount
          + pendingCount (boardRun H kw ks V (initialBoard self gid wealth) ops) ∧
      (boardRun H kw ks V (initialBoard self gid wealth) ops).messageCount
        ≤ (boardRun H kw ks V (initialBoard self gid wealth) ops).messageCounter) ∧
    (∀ σ s root nh proof msg fee idx σ',
      createRelayRequest σ s root nh proof msg fee idx = .ok σ' →
        σ'.messageCounter = σ.messageCounter + 1 ∧ σ'.messageCount = σ.messageCount) ∧
    (∀ σ s requestId σ', executeRelay V ks σ s requestId = .ok σ' →
        σ'.messageCount = σ.messageCount + 1 ∧ σ'.messageCounter = σ.messageCounter ∧
        (σ.relayRequests requestId).executed = false ∧
        (σ'.relayRequests requestId).executed = true) ∧
    (∀ σ s root nh proof msg idx σ',
      postMessageDirect V ks σ s root nh proof msg idx = .ok σ' →
        σ'.messageCount = σ.messageCount + 1 ∧ σ'.messageCounter = σ.messageCounter + 1) := by
  refine ⟨fun self gid wealth ops hs => ?_, fun σ s root nh proof msg fee idx σ' h => ?_,
    fun σ s requestId σ' h => ?_, fun σ s root nh proof msg idx σ' h => ?_⟩
  · have hinv := boardRun_counterInv H kw ks V ops (initialBoard self gid wealth) hs
      (initialBoard_counterInv self gid wealth)
    have h2 := hinv.2
    exact ⟨h2, by omega⟩
  · obtain ⟨-, -, -, -, hσ'⟩ := createRelayRequest_ok σ s root nh proof msg fee idx σ' h
    subst hσ'
    exact ⟨rfl, rfl⟩
  · obtain ⟨hex, -, -, -, -, -, hσ'⟩ := executeRelay_ok V ks σ s requestId σ' h
    subst hσ'
    exact ⟨rfl, rfl, hex, by simp [updF_same]⟩
  · obtain ⟨-, -, -, -, hσ'⟩ := postMessageDirect_ok V ks σ s root nh proof msg idx σ' h
    subst hσ'
    exact ⟨rfl, rfl⟩

/-- A concrete run: initialise, join with the minimum deposit, then create one
relay request. -/
def opsC9 : List BoardOp :=
  [.init 1, .join 1 MIN_DEPOSIT 42, .createReq 1 7 3 pf0 [] COST_PER_MESSAGE 0]

/-- C9 witness: along the concrete run opsC9 every sender is non-zero and the
counter identity and bound hold in the resulting state. -/
theorem C9_message_count_bound_witness :
    (∀ op ∈ opsC9, BoardOp.sender op ≠ 0) ∧
    ((boardRun Hc kwc ksc Vtrue (initialBoard 2 5 fun _ => MIN_DEPOSIT) opsC9).messageCounter
      = (boardRun Hc kwc ksc Vtrue (initialBoard 2 5 fun _ => MIN_DEPOSIT) opsC9).messageCount
        + pendingCount (boardRun Hc kwc ksc Vtrue (initialBoard 2 5 fun _ => MIN_DEPOSIT) opsC9) ∧
     (boardRun Hc kwc ksc Vtrue (initialBoard 2 5 fun _ => MIN_DEPOSIT) opsC9).messageCount
      ≤ (boardRun Hc kwc ksc Vtrue (initialBoard 2 5 fun _ => MIN_DEPOSIT) opsC9).messageCounter) := by
  have hs : ∀ op ∈ opsC9, BoardOp.sender op ≠ 0 := by
    intro op hop
    simp only [opsC9, List.mem_cons, List.not_mem_nil, or_false] at hop
    rcases hop with rfl | rfl | rfl <;> decide
  exact ⟨hs, (C9_message_count_bound Hc kwc ksc Vtrue).1 2 5 (fun _ => MIN_DEPOSIT) opsC9 hs⟩

/-- Effect of a point update on a Finset sum, in balanced form. -/
theorem finsetSum_updF (f : Nat → Nat) (s w : Nat) (S : Finset Nat) :
    (S.sum fun p => updF f s w p) + (if s ∈ S then f s else 0)
      = (S.sum fun p => f p) + (if s ∈ S then w else 0) := by
  induction S using Finset.induction_on with
  | empty => simp
  | insert ha ih =>
    rename_i a S
    by_cases hsa : s = a
    · subst hsa
      simp only [Finset.sum_insert ha, Finset.mem_insert, true_or, if_pos, updF_same]
      have hs' : s ∉ S := ha
      simp only [if_neg hs', Nat.add_zero] at ih
      omega
    · have hmem : s ∈ insert a S ↔ s ∈ S := by
        simp [Finset.mem_insert, Ne.symm, hsa]
      simp only [Finset.sum_insert ha, updF_other f s a w (Ne.symm hsa)]
      by_cases hsS : s ∈ S
      · simp only [if_pos (hmem.2 hsS), if_pos hsS] at ih ⊢
        omega
      · have : s ∉ insert a S := fun h => hsS (hmem.1 h)
        simp only [if_neg this, if_neg hsS, Nat.add_zero] at ih ⊢
        omega

/-- The contract's ETH covers every finite set of ledger balances. -/
def DepositsCovered (σ : BoardState) : Prop :=
  ∀ S : Finset Nat, (S.sum fun p => σ.deposits p) ≤ σ.contractBal

/-- Every successful transaction preserves DepositsCovered. -/
theorem boardApply_covered (H : Nat → Nat → Nat) (kw : Nat → Nat)
    (ks : List Nat → Nat) (V : VerifierT) (σ : BoardState) (op : BoardOp)
    (σ' : BoardState) (hop : boardApply H kw ks V σ op = .ok σ')
    (hcov : DepositsCovered σ) : DepositsCovered σ' := by
  cases op with
  | init s =>
    obtain ⟨-, sem', -, hσ'⟩ := initializeBoard_ok H kw σ σ' hop
    subst hσ'
    exact hcov
  | createReq s root nh proof msg fee idx =>
    obtain ⟨-, -, -, -, hσ'⟩ := createRelayRequest_ok σ s root nh proof msg fee idx σ' hop
    subst hσ'
    exact hcov
  | join s v c =>
    obtain ⟨-, -, sem', -, hσ'⟩ := joinGroupWithDeposit_ok H σ s v c σ' hop
    subst hσ'
    intro S
    show (S.sum fun p => updF σ.deposits s (σ.deposits s + v) p) ≤ σ.contractBal + v
    have h := finsetSum_updF σ.deposits s (σ.deposits s + v) S
    have h2 := hcov S
    by_cases hs : s ∈ S <;> simp [hs] at h <;> omega
  | topUp s v =>
    obtain ⟨-, -, hσ'⟩ := topUpDeposit_ok σ s v σ' hop
    subst hσ'
    intro S
    show (S.sum fun p => updF σ.deposits s (σ.deposits s + v) p) ≤ σ.contractBal + v
    have h := finsetSum_updF σ.deposits s (σ.deposits s + v) S
    have h2 := hcov S
    by_cases hs : s ∈ S <;> simp [hs] at h <;> omega
  | withdraw s =>
    obtain ⟨-, hble, hσ'⟩ := withdrawDeposit_ok σ s σ' hop
    subst hσ'
    intro S
    show (S.sum fun p => updF σ.deposits s 0 p) ≤ σ.contractBal - σ.deposits s
    have h := finsetSum_updF σ.deposits s 0 S
    by_cases hs : s ∈ S
    · have h2 := hcov S
      simp only [if_pos hs] at h
      omega
    · have h2 := hcov (insert s S)
      simp only [Finset.sum_insert hs] at h2
      simp only [if_neg hs, Nat.add_zero] at h
      omega
  | execute s requestId =>
    obtain ⟨-, -, -, -, hfee, hbal, hσ'⟩ := executeRelay_ok V ks σ s requestId σ' hop
    subst hσ'
    intro S
    show (S.sum fun q => updF σ.deposits (σ.relayRequests requestId).requester
        (σ.deposits (σ.relayRequests requestId).requester
          - (σ.relayRequests requestId).relayFee) q)
      ≤ σ.contractBal - (σ.relayRequests requestId).relayFee
    have h := finsetSum_updF σ.deposits (σ.relayRequests requestId).requester
      (σ.deposits (σ.relayRequests requestId).requester
        - (σ.relayRequests requestId).relayFee) S
    by_cases hp : (σ.relayRequests requestId).requester ∈ S
    · have h2 := hcov S
      simp only [if_pos hp] at h
      omega
    · have h2 := hcov (insert (σ.relayRequests requestId).requester S)
      simp only [Finset.sum_insert hp] at h2
      simp only [if_neg hp, Nat.add_zero] at h
      omega
  | postDirect s root nh proof msg idx =>
    obtain ⟨hdep, -, -, -, hσ'⟩ := postMessageDirect_ok V ks σ s root nh proof msg idx σ' hop
    subst hσ'
    intro S
    show (S.sum fun q => updF σ.deposits s (σ.deposits s - COST_PER_MESSAGE) q) ≤ σ.contractBal
    have h := finsetSum_updF σ.deposits s (σ.deposits s - COST_PER_MESSAGE) S
    have h2 := hcov S
    by_cases hs : s ∈ S <;> simp [hs] at h <;> omega

/-- DepositsCovered holds along every run. -/
theorem boardRun_covered (H : Nat → Nat → Nat) (kw : Nat → Nat)
    (ks : List Nat → Nat) (V : VerifierT) :
    ∀ (ops : List BoardOp) (σ : BoardState), DepositsCovered σ →
      DepositsCovered (boardRun H kw ks V σ ops) := by
  intro ops
  induction ops with
  | nil => intro σ h; exact h
  | cons op ops ih =>
    intro σ h
    refine ih _ ?_
    unfold boardRun1
    cases hop : boardApply H kw ks V σ op with
    | error e => exact h
    | ok σ' => exact boardApply_covered H kw ks V σ op σ' hop h

/-- A fresh deployment is covered: all deposits are zero. -/
theorem initialBoard_covered (self gid : Nat) (wealth : Nat → Nat) :
    DepositsCovered (initialBoard self gid wealth) := by
  intro S
  show (S.sum fun _ => 0) ≤ 0
  simp

/-- Withdrawal succeeds and returns the full balance whenever the balance is
nonzero and covered by the contract's ETH. -/
theorem withdrawDeposit_succeeds (σ : BoardState) (sender : Nat)
    (h0 : σ.deposits sender ≠ 0) (hb : σ.deposits sender ≤ σ.contractBal) :
    ∃ σ', withdrawDeposit σ sender = .ok σ' ∧ σ'.deposits sender = 0 ∧
      σ'.extBal sender = σ.extBal sender + σ.deposits sender := by
  refine ⟨{ σ with
      deposits := updF σ.deposits sender 0,
      contractBal := σ.contractBal - σ.deposits sender,
      extBal := updF σ.extBal sender (σ.extBal sender + σ.deposits sender) },
    ?_, by simp [updF_same], by simp [updF_same]⟩
  simp [withdrawDeposit, h0, Nat.not_lt.2 hb]

/-- C10: createRelayRequest reserves nothing — deposits, the contract balance
and external balances are untouched; in every covered state (an invariant of
all reachable states) the requester can still withdraw their entire balance
while the request is pending; executeRelay succeeds only when the requester's
deposit covers the stored fee at execution time; and when it does not, the
checked fee debit aborts the call with every piece of state unchanged. -/
theorem C10_create_reserves_nothing (H : Nat → Nat → Nat) (kw : Nat → Nat)
    (ks : List Nat → Nat) (V : VerifierT) :
    (∀ σ s root nh proof msg fee idx σ',
      createRelayRequest σ s root nh proof msg fee idx = .ok σ' →
        σ'.deposits = σ.deposits ∧ σ'.contractBal = σ.contractBal ∧ σ'.extBal = σ.extBal) ∧
    (∀ (self gid : Nat) (wealth : Nat → Nat) (ops : List BoardOp),
      DepositsCovered (boardRun H kw ks V (initialBoard self gid wealth) ops)) ∧
    (∀ σ s root nh proof msg fee idx σ', DepositsCovered σ →
      createRelayRequest σ s root nh proof msg fee idx = .ok σ' →
        ∃ σ'', withdrawDeposit σ' s = .ok σ'' ∧ σ''.deposits s = 0 ∧
          σ''.extBal s = σ'.extBal s + σ'.deposits s) ∧
    (∀ σ s requestId σ', executeRelay V ks σ s requestId = .ok σ' →
      (σ.relayRequests requestId).relayFee
        ≤ σ.deposits (σ.relayRequests requestId).requester) ∧
    (∀ σ s requestId,
      (σ.relayRequests requestId).executed = false →
      (σ.relayRequests requestId).requester ≠ 0 →
      σ.nullifierHashes (σ.relayRequests requestId).nullifierHash = false →
      σ.sem.validRoots σ.groupId (σ.relayRequests requestId).merkleTreeRoot = true →
      σ.deposits (σ.relayRequests requestId).requester < (σ.relayRequests requestId).relayFee →
        executeRelay V ks σ s requestId = .error .depositUnderflow ∧
        boardRun1 H kw ks V σ (BoardOp.execute s requestId) = σ) := by
  refine ⟨fun σ s root nh proof msg fee idx σ' h => ?_,
    fun self gid wealth ops => boardRun_covered H kw ks V ops _
      (initialBoard_covered self gid wealth),
    fun σ s root nh proof msg fee idx σ' hcov h => ?_,
    fun σ s requestId σ' h => ?_,
    fun σ s requestId hex hrq hnl hroot hlt => ?_⟩
  · obtain ⟨-, -, -, -, hσ'⟩ := createRelayRequest_ok σ s root nh proof msg fee idx σ' h
    subst hσ'
    exact ⟨rfl, rfl, rfl⟩
  · obtain ⟨hfee, hdep, -, -, hσ'⟩ := createRelayRequest_ok σ s root nh proof msg fee idx σ' h
    subst hσ'
    have hpos : σ.deposits s ≠ 0 := by
      have hc : 0 < COST_PER_MESSAGE := by norm_num [COST_PER_MESSAGE]
      omega
    have hble : σ.deposits s ≤ σ.contractBal := by
      have := hcov {s}
      simpa using this
    exact withdrawDeposit_succeeds _ s hpos hble
  · obtain ⟨-, -, -, -, hfee, -, -⟩ := executeRelay_ok V ks σ s requestId σ' h
    exact hfee
  · have herr : executeRelay V ks σ s requestId = .error .depositUnderflow := by
      simp [executeRelay, verifyProofSem, hex, hrq, hnl, hroot, hlt]
    refine ⟨herr, ?_⟩
    simp [boardRun1, boardApply, herr]

/-- The reachable state after initialising and joining with the minimum
deposit. -/
def σrich : BoardState :=
  boardRun Hc kwc ksc Vtrue (initialBoard 2 5 fun _ => MIN_DEPOSIT)
    [.init 1, .join 1 MIN_DEPOSIT 42]

/-- σrich after principal 1 creates a relay request. -/
def σcreated : BoardState :=
  okOr σrich (createRelayRequest σrich 1 7 3 pf0 [] COST_PER_MESSAGE 0)

/-- σpend with every deposit drained (the requester withdrew after
creating). -/
def σpoor : BoardState :=
  { σpend with deposits := fun _ => 0 }

/-- C10 witness: the concrete create from σrich changes no balance, the full
MIN_DEPOSIT remains withdrawable while the request is pending, and executing
request 0 of the drained σpoor aborts with the checked-subtraction underflow,
leaving the state unchanged. -/
theorem C10_create_reserves_nothing_witness :
    createRelayRequest σrich 1 7 3 pf0 [] COST_PER_MESSAGE 0 = .ok σcreated ∧
    σcreated.deposits = σrich.deposits ∧
    (∃ σ'', withdrawDeposit σcreated 1 = .ok σ'' ∧ σ''.deposits 1 = 0 ∧
      σ''.extBal 1 = σcreated.extBal 1 + σcreated.deposits 1) ∧
    executeRelay Vtrue ksc σpoor 9 0 = .error .depositUnderflow ∧
    boardRun1 Hc kwc ksc Vtrue σpoor (BoardOp.execute 9 0) = σpoor := by
  obtain ⟨hA, hB, hC, -, hE⟩ := C10_create_reserves_nothing Hc kwc ksc Vtrue
  have hcov : DepositsCovered σrich :=
    hB 2 5 (fun _ => MIN_DEPOSIT) [.init 1, .join 1 MIN_DEPOSIT 42]
  have hcr : createRelayRequest σrich 1 7 3 pf0 [] COST_PER_MESSAGE 0 = .ok σcreated := by rfl
  obtain ⟨hd, -, -⟩ := hA σrich 1 7 3 pf0 [] COST_PER_MESSAGE 0 σcreated hcr
  obtain ⟨hE1, hE2⟩ := hE σpoor 9 0 (by decide) (by decide) (by decide) (by decide) (by decide)
  exact ⟨hcr, hd, hC σrich 1 7 3 pf0 [] COST_PER_MESSAGE 0 σcreated hcov hcr, hE1, hE2⟩
